import Mathlib

/-!
Verification of the OpenPGP.js core (MPI codec, enum registries, RSA
primitives, GCM nonce derivation, and text canonicalization) against its
natural-language specification.

Byte arrays (`Uint8Array`) are embedded as `List Nat` with every entry
below 256.  JavaScript functions that `throw` are embedded as
`Option`-valued functions returning `none` on the throwing path.
-/

namespace OpenPGPJS

/-! ## `util.nbits` (src/util.js)

Returns the bit length of the integer `x` by the cascade of shifts used
in the source.  JavaScript `>>>`/`>>` on a non-negative number below
2^31 agrees with `Nat.shiftRight`. -/

def nbits (x : Nat) : Nat :=
  let r := 1
  let t := x >>> 16
  let (x, r) := if t ≠ 0 then (t, r + 16) else (x, r)
  let t := x >>> 8
  let (x, r) := if t ≠ 0 then (t, r + 8) else (x, r)
  let t := x >>> 4
  let (x, r) := if t ≠ 0 then (t, r + 4) else (x, r)
  let t := x >>> 2
  let (x, r) := if t ≠ 0 then (t, r + 2) else (x, r)
  let t := x >>> 1
  let (_, r) := if t ≠ 0 then (t, r + 1) else (x, r)
  r

/-! ## `util.uint8ArrayBitLength` (src/util.js)

The `for` loop scanning for the first non-zero byte is `dropWhile (· == 0)`;
the result is `(stripped.length - 1) * 8 + nbits stripped[0]`, and `0`
when every byte is zero. -/

def uint8ArrayBitLength (bin : List Nat) : Nat :=
  match bin.dropWhile (· == 0) with
  | [] => 0
  | b :: rest => rest.length * 8 + nbits b

/-! ## `util.uint8ArrayToMPI` (src/util.js)

Throws `'Zero MPI'` when the bit length is zero (embedded as `none`).
Otherwise keeps the trailing `⌈bitSize/8⌉` bytes and prepends the two
big-endian length bytes `[(bitSize & 0xFF00) >> 8, bitSize & 0xFF]`. -/

def uint8ArrayToMPI (bin : List Nat) : Option (List Nat) :=
  let bitSize := uint8ArrayBitLength bin
  if bitSize = 0 then none
  else
    let stripped := bin.drop (bin.length - (bitSize + 7) / 8)
    let pfx := [(bitSize &&& 0xFF00) >>> 8, bitSize &&& 0xFF]
    some (pfx ++ stripped)

/-! ## `util.readMPI` (src/util.js)

`bits = (bytes[0] << 8) | bytes[1]`, `bytelen = (bits + 7) >>> 3`,
result `bytes.subarray(2, 2 + bytelen)`.  Out-of-range reads give
`undefined`, which the bitwise operators coerce to `0`, hence `getD _ 0`. -/

def readMPI (bytes : List Nat) : List Nat :=
  let bits := ((bytes.getD 0 0) <<< 8) ||| (bytes.getD 1 0)
  let bytelen := (bits + 7) >>> 3
  (bytes.drop 2).take bytelen

/-! ### Helper lemmas about the MPI codec -/

set_option maxRecDepth 4000 in
theorem nbits_bounds : ∀ x < 256, x ≠ 0 → x < 2 ^ nbits x ∧ 2 ^ (nbits x - 1) ≤ x := by
  decide

/-- `util.nbits` computes the exact bit length (`Nat.size`) of a byte. -/
theorem nbits_eq_size (x : Nat) (hx : x < 256) (hne : x ≠ 0) : nbits x = Nat.size x := by
  obtain ⟨h1, h2⟩ := nbits_bounds x hx hne
  have hup : Nat.size x ≤ nbits x := Nat.size_le.mpr h1
  have hpos : 1 ≤ nbits x := by
    rcases Nat.eq_zero_or_pos (nbits x) with h | h
    · rw [h] at h1; omega
    · exact h
  have hlo : nbits x - 1 < Nat.size x := Nat.lt_size.mpr h2
  omega

set_option maxRecDepth 4000 in
theorem nbits_range : ∀ x < 256, x ≠ 0 → 1 ≤ nbits x ∧ nbits x ≤ 8 := by decide

/-- The two MPI length bytes recombine to the bit size when it fits in 16 bits. -/
theorem mpi_length_bytes_recombine (b : Nat) (hb : b < 65536) :
    ((((b &&& 0xFF00) >>> 8) <<< 8) ||| (b &&& 0xFF)) = b := by
  have h16 : b % 65536 = b := Nat.mod_eq_of_lt hb
  conv_rhs => rw [← h16]
  apply Nat.eq_of_testBit_eq
  intro i
  have hff00 : (0xFF00 : Nat) = (2 ^ 8 - 1) <<< 8 := by decide
  have hff : (0xFF : Nat) = 2 ^ 8 - 1 := by decide
  have h65536 : (65536 : Nat) = 2 ^ 16 := by decide
  rw [hff00, hff, h65536, Nat.testBit_lor, Nat.testBit_shiftLeft,
    Nat.testBit_shiftRight, Nat.testBit_land, Nat.testBit_shiftLeft,
    Nat.testBit_land, Nat.testBit_two_pow_sub_one, Nat.testBit_two_pow_sub_one,
    Nat.testBit_mod_two_pow]
  rcases Nat.lt_or_ge i 8 with hi | hi
  · simp [show ¬ (i ≥ 8) from by omega, show i < 8 from hi, show i < 16 from by omega]
  · simp [show i ≥ 8 from hi, show ¬ (i < 8) from by omega,
      show 8 + (i - 8) = i from by omega, show (i - 8 < 8) = (i < 16) from by
        simp; omega, Bool.and_comm]

theorem drop_length_takeWhile_eq (p : Nat → Bool) (l : List Nat) :
    l.drop (l.takeWhile p).length = l.dropWhile p := by
  induction l with
  | nil => rfl
  | cons a l ih =>
    by_cases h : p a
    · simp [List.takeWhile_cons, List.dropWhile_cons, h, ih]
    · simp [List.takeWhile_cons, List.dropWhile_cons, h]

theorem dropWhile_drop_eq (p : Nat → Bool) (l : List Nat) :
    l.drop (l.length - (l.dropWhile p).length) = l.dropWhile p := by
  have hlen : (l.takeWhile p).length + (l.dropWhile p).length = l.length := by
    rw [← List.length_append, List.takeWhile_append_dropWhile]
  have h : l.length - (l.dropWhile p).length = (l.takeWhile p).length := by omega
  rw [h, drop_length_takeWhile_eq]

/-- Structure of `uint8ArrayToMPI` on an input with some non-zero byte:
the payload is the input with leading zero bytes stripped, and the two
prefix bytes encode `bitSize` reduced to 16 bits. -/
theorem uint8ArrayToMPI_eq (bin : List Nat) (h : Nat) (t : List Nat)
    (hdw : bin.dropWhile (· == 0) = h :: t) (hh : h ≠ 0) (hlt : h < 256) :
    uint8ArrayToMPI bin =
      some (((t.length * 8 + nbits h) &&& 0xFF00) >>> 8 ::
            ((t.length * 8 + nbits h) &&& 0xFF) :: h :: t) := by
  have hbits : uint8ArrayBitLength bin = t.length * 8 + nbits h := by
    rw [uint8ArrayBitLength, hdw]
  have hr := nbits_range h hlt hh
  have hne : uint8ArrayBitLength bin ≠ 0 := by omega
  have hdiv : (t.length * 8 + nbits h + 7) / 8 = t.length + 1 := by omega
  have hdrop : bin.drop (bin.length - (t.length + 1)) = h :: t := by
    have := dropWhile_drop_eq (· == 0) bin
    rw [hdw] at this
    simpa using this
  rw [uint8ArrayToMPI]
  simp only [hbits, hdiv, hdrop]
  rw [if_neg (by omega)]
  simp

theorem dropWhile_head_not (p : Nat → Bool) (l : List Nat) (x : Nat) (xs : List Nat)
    (h : l.dropWhile p = x :: xs) : p x = false := by
  induction l with
  | nil => simp at h
  | cons a l ih =>
    rw [List.dropWhile_cons] at h
    by_cases ha : p a
    · rw [if_pos ha] at h
      exact ih h
    · rw [if_neg ha] at h
      cases h
      simpa using ha

theorem and_ff00_shiftRight (b : Nat) : (b &&& 0xFF00) >>> 8 = (b >>> 8) &&& 0xFF := by
  apply Nat.eq_of_testBit_eq
  intro i
  rw [Nat.testBit_shiftRight, Nat.testBit_land, Nat.testBit_land, Nat.testBit_shiftRight,
      show (0xFF00 : Nat) = (0xFF : Nat) <<< 8 from by decide, Nat.testBit_shiftLeft]
  simp [show 8 + i ≥ 8 from by omega, show 8 + i - 8 = i from by omega]

/-- The two MPI length bytes, read as a big-endian number, give back the
bit size when it fits in 16 bits. -/
theorem mpi_length_bytes_value (b : Nat) (hb : b < 65536) :
    ((b &&& 0xFF00) >>> 8) * 256 + (b &&& 0xFF) = b := by
  rw [and_ff00_shiftRight, Nat.shiftRight_eq_div_pow,
      show (0xFF : Nat) = 2 ^ 8 - 1 from by decide,
      Nat.and_pow_two_sub_one_eq_mod, Nat.and_pow_two_sub_one_eq_mod]
  norm_num
  omega

/-! ### Claim C1: MPI round trip -/

/-- C1 (amended): for every non-empty byte array `m` with no leading zero
byte whose bit length fits the 16-bit MPI prefix (at most 65535 bits),
`readMPI (uint8ArrayToMPI m) = m`.  The amendment adds the bit-length
bound, which the counterexample `C1_mpi_roundtrip_counterexample` shows
to be necessary. -/
theorem C1_mpi_roundtrip (m : List Nat) (hne : m ≠ [])
    (hbytes : ∀ b ∈ m, b < 256) (hlead : m.headD 0 ≠ 0)
    (hfit : uint8ArrayBitLength m ≤ 65535) :
    (uint8ArrayToMPI m).map readMPI = some m := by
  obtain ⟨h, t, rfl⟩ : ∃ h t, m = h :: t := by
    cases m with
    | nil => exact absurd rfl hne
    | cons a l => exact ⟨a, l, rfl⟩
  have hh : h ≠ 0 := by simpa using hlead
  have hlt : h < 256 := hbytes h (by simp)
  have hdw : (h :: t).dropWhile (· == 0) = h :: t := by
    rw [List.dropWhile_cons]
    simp [hh]
  have hbl : uint8ArrayBitLength (h :: t) = t.length * 8 + nbits h := by
    rw [uint8ArrayBitLength, hdw]
  have hr := nbits_range h hlt hh
  have hfit' : t.length * 8 + nbits h < 65536 := by rw [hbl] at hfit; omega
  rw [uint8ArrayToMPI_eq (h :: t) h t hdw hh hlt, Option.map_some']
  congr 1
  rw [readMPI]
  simp only [List.getD_cons_zero, List.getD_cons_succ]
  rw [mpi_length_bytes_recombine _ hfit']
  have hlen : (t.length * 8 + nbits h + 7) >>> 3 = t.length + 1 := by
    rw [Nat.shiftRight_eq_div_pow]
    have : (2 : Nat) ^ 3 = 8 := by norm_num
    rw [this]
    omega
  rw [hlen]
  show ((h :: t).take (t.length + 1)) = h :: t
  rw [show t.length + 1 = (h :: t).length from by simp, List.take_length]

/-- Witness for C1 at the one-byte MPI `[1]`. -/
theorem C1_mpi_roundtrip_witness :
    ([1] : List Nat) ≠ [] ∧ (∀ b ∈ ([1] : List Nat), b < 256) ∧
      ([1] : List Nat).headD 0 ≠ 0 ∧ uint8ArrayBitLength [1] ≤ 65535 ∧
      (uint8ArrayToMPI [1]).map readMPI = some [1] :=
  ⟨by decide, by decide, by decide, by decide,
    C1_mpi_roundtrip [1] (by decide) (by decide) (by decide) (by decide)⟩

def mpiOverflowInput : List Nat := 128 :: List.replicate 8191 0

theorem mpiOverflowInput_dropWhile :
    mpiOverflowInput.dropWhile (· == 0) = mpiOverflowInput := by
  rw [mpiOverflowInput, List.dropWhile_cons]
  norm_num

theorem mpiOverflowInput_toMPI :
    uint8ArrayToMPI mpiOverflowInput = some (0 :: 0 :: mpiOverflowInput) := by
  have h := uint8ArrayToMPI_eq mpiOverflowInput 128 (List.replicate 8191 0)
    (by rw [mpiOverflowInput_dropWhile, mpiOverflowInput]) (by decide) (by decide)
  have hA : (((List.replicate 8191 (0 : Nat)).length * 8 + nbits 128) &&& 0xFF00) >>> 8 = 0 := by
    rw [List.length_replicate]
    decide
  have hB : ((List.replicate 8191 (0 : Nat)).length * 8 + nbits 128) &&& 0xFF = 0 := by
    rw [List.length_replicate]
    decide
  rw [h, hA, hB, mpiOverflowInput]

/-- C1 counterexample: the 8192-byte value `0x80 00 … 00` has bit length
65536, which overflows the 16-bit MPI prefix; the written MPI declares
bit length 0 and reads back as the empty array, so the round trip fails. -/
theorem C1_mpi_roundtrip_counterexample :
    (uint8ArrayToMPI mpiOverflowInput).map readMPI ≠ some mpiOverflowInput := by
  rw [mpiOverflowInput_toMPI, Option.map_some']
  intro h
  have h2 : readMPI (0 :: 0 :: mpiOverflowInput) = mpiOverflowInput := by
    exact Option.some_injective _ h
  rw [readMPI] at h2
  simp only [List.getD_cons_zero, List.getD_cons_succ] at h2
  rw [show ((((0 : Nat) <<< 8) ||| 0) + 7) >>> 3 = 0 from by decide] at h2
  simp only [List.take_zero] at h2
  rw [mpiOverflowInput] at h2
  exact List.cons_ne_nil _ _ h2.symm

/-! ### Claim C5: zero MPI rejection -/

/-- C5 (amended): zero MPIs are rejected on conversion, not on read:
`uint8ArrayToMPI` errors (`'Zero MPI'`) on any all-zero byte array. -/
theorem C5_zero_mpi_rejected_on_write (bin : List Nat) (hz : ∀ b ∈ bin, b = 0) :
    uint8ArrayToMPI bin = none := by
  have hdw : bin.dropWhile (· == 0) = [] := by
    rw [List.dropWhile_eq_nil_iff]
    intro x hx
    simp [hz x hx]
  have hbl : uint8ArrayBitLength bin = 0 := by
    rw [uint8ArrayBitLength, hdw]
  rw [uint8ArrayToMPI]
  simp [hbl]

/-- Witness for C5 at the all-zero array `[0, 0]`. -/
theorem C5_zero_mpi_rejected_on_write_witness :
    (∀ b ∈ ([0, 0] : List Nat), b = 0) ∧ uint8ArrayToMPI [0, 0] = none :=
  ⟨by decide, C5_zero_mpi_rejected_on_write [0, 0] (by decide)⟩

/-- C5 counterexample: `util.readMPI` does not reject zero-valued MPIs:
the wire bytes `[0x00, 0x10, 0x00, 0x00]` declare a 16-bit MPI whose
payload is all zero, and `readMPI` returns the payload `[0, 0]` normally
instead of raising an error. -/
theorem C5_zero_mpi_read_counterexample : readMPI [0, 16, 0, 0] = [0, 0] := by decide

/-! ### Claim C6: MPI write canonical form -/

/-- C6 (amended): for every byte array with at least one non-zero byte
whose bit length fits the 16-bit prefix, `uint8ArrayToMPI` strips all
leading zero bytes and its two-byte big-endian prefix equals the exact
bit length (`Nat.size`) of the remaining most significant byte plus 8
times the number of following bytes.  The amendment adds the bit-length
bound, which the counterexample `C6_mpi_write_canonical_counterexample`
shows to be necessary. -/
theorem C6_mpi_write_canonical (bin : List Nat) (hbytes : ∀ b ∈ bin, b < 256)
    (hnz : ∃ b ∈ bin, b ≠ 0) (hfit : uint8ArrayBitLength bin ≤ 65535) :
    ∃ b0 b1 h t, bin.dropWhile (· == 0) = h :: t ∧ h ≠ 0 ∧
      uint8ArrayToMPI bin = some (b0 :: b1 :: h :: t) ∧
      b0 * 256 + b1 = t.length * 8 + Nat.size h := by
  obtain ⟨h, t, hdw⟩ : ∃ h t, bin.dropWhile (· == 0) = h :: t := by
    cases hcase : bin.dropWhile (· == 0) with
    | nil =>
      obtain ⟨b, hb, hbne⟩ := hnz
      rw [List.dropWhile_eq_nil_iff] at hcase
      exact absurd (by simpa using hcase b hb) hbne
    | cons a l => exact ⟨a, l, rfl⟩
  have hh : h ≠ 0 := by
    have := dropWhile_head_not (· == 0) bin h t hdw
    simpa using this
  have hmem : h ∈ bin := by
    have hin : h ∈ bin.dropWhile (· == 0) := by rw [hdw]; simp
    exact (List.dropWhile_sublist (· == 0)).subset hin
  have hlt : h < 256 := hbytes h hmem
  have hbl : uint8ArrayBitLength bin = t.length * 8 + nbits h := by
    rw [uint8ArrayBitLength, hdw]
  have hfit' : t.length * 8 + nbits h < 65536 := by rw [hbl] at hfit; omega
  refine ⟨_, _, h, t, hdw, hh, uint8ArrayToMPI_eq bin h t hdw hh hlt, ?_⟩
  rw [mpi_length_bytes_value _ hfit', nbits_eq_size h hlt hh]

/-- Witness for C6 at the byte array `[0, 5]` (one leading zero byte). -/
theorem C6_mpi_write_canonical_witness :
    (∀ b ∈ ([0, 5] : List Nat), b < 256) ∧ (∃ b ∈ ([0, 5] : List Nat), b ≠ 0) ∧
      uint8ArrayBitLength [0, 5] ≤ 65535 ∧
      (∃ b0 b1 h t, ([0, 5] : List Nat).dropWhile (· == 0) = h :: t ∧ h ≠ 0 ∧
        uint8ArrayToMPI [0, 5] = some (b0 :: b1 :: h :: t) ∧
        b0 * 256 + b1 = t.length * 8 + Nat.size h) :=
  ⟨by decide, by decide, by decide,
    C6_mpi_write_canonical [0, 5] (by decide) (by decide) (by decide)⟩

def mpiWideInput : List Nat := 255 :: List.replicate 8191 0

theorem mpiWideInput_toMPI :
    uint8ArrayToMPI mpiWideInput = some (0 :: 0 :: mpiWideInput) := by
  have hdw : mpiWideInput.dropWhile (· == 0) = 255 :: List.replicate 8191 0 := by
    rw [mpiWideInput, List.dropWhile_cons]
    norm_num
  have h := uint8ArrayToMPI_eq mpiWideInput 255 (List.replicate 8191 0)
    hdw (by decide) (by decide)
  have hA : (((List.replicate 8191 (0 : Nat)).length * 8 + nbits 255) &&& 0xFF00) >>> 8 = 0 := by
    rw [List.length_replicate]
    decide
  have hB : ((List.replicate 8191 (0 : Nat)).length * 8 + nbits 255) &&& 0xFF = 0 := by
    rw [List.length_replicate]
    decide
  rw [h, hA, hB, mpiWideInput]

/-- C6 counterexample: the 8192-byte value `0xFF 00 … 00` has bit length
65536; the emitted prefix bytes are `[0, 0]`, whose big-endian value 0 is
not the bit length of the payload. -/
theorem C6_mpi_write_canonical_counterexample :
    ¬ ∃ b0 b1 h t, uint8ArrayToMPI mpiWideInput = some (b0 :: b1 :: h :: t) ∧
      b0 * 256 + b1 = t.length * 8 + Nat.size h := by
  rintro ⟨b0, b1, h, t, heq, hval⟩
  rw [mpiWideInput_toMPI, mpiWideInput] at heq
  have hinj := Option.some_injective _ heq
  simp only [List.cons.injEq] at hinj
  obtain ⟨rfl, rfl, rfl, rfl⟩ := hinj
  rw [List.length_replicate] at hval
  have hs : Nat.size 255 = 8 := by
    rw [← nbits_eq_size 255 (by decide) (by decide)]
    decide
  rw [hs] at hval
  omega

/-! ## The enums module (src/enums.js)

Each enum of the module is a JavaScript object literal; we embed it as an
association list in insertion order.  Values are either strings (the
`curve` table) or integers, embedded as `String ⊕ Nat`. -/

def curveEnum : List (String × (String ⊕ Nat)) := [
  ("p256", .inl "p256"), ("P-256", .inl "p256"), ("secp256r1", .inl "p256"),
  ("prime256v1", .inl "p256"), ("1.2.840.10045.3.1.7", .inl "p256"),
  ("2a8648ce3d030107", .inl "p256"), ("2A8648CE3D030107", .inl "p256"),
  ("p384", .inl "p384"), ("P-384", .inl "p384"), ("secp384r1", .inl "p384"),
  ("1.3.132.0.34", .inl "p384"), ("2b81040022", .inl "p384"), ("2B81040022", .inl "p384"),
  ("p521", .inl "p521"), ("P-521", .inl "p521"), ("secp521r1", .inl "p521"),
  ("1.3.132.0.35", .inl "p521"), ("2b81040023", .inl "p521"), ("2B81040023", .inl "p521"),
  ("secp256k1", .inl "secp256k1"), ("1.3.132.0.10", .inl "secp256k1"),
  ("2b8104000a", .inl "secp256k1"), ("2B8104000A", .inl "secp256k1"),
  ("ed25519Legacy", .inl "ed25519"), ("ED25519", .inl "ed25519"),
  ("ed25519", .inl "ed25519"), ("Ed25519", .inl "ed25519"),
  ("1.3.6.1.4.1.11591.15.1", .inl "ed25519"), ("2b06010401da470f01", .inl "ed25519"),
  ("2B06010401DA470F01", .inl "ed25519"),
  ("curve25519Legacy", .inl "curve25519"), ("X25519", .inl "curve25519"),
  ("cv25519", .inl "curve25519"), ("curve25519", .inl "curve25519"),
  ("Curve25519", .inl "curve25519"), ("1.3.6.1.4.1.3029.1.5.1", .inl "curve25519"),
  ("2b060104019755010501", .inl "curve25519"), ("2B060104019755010501", .inl "curve25519"),
  ("brainpoolP256r1", .inl "brainpoolP256r1"), ("1.3.36.3.3.2.8.1.1.7", .inl "brainpoolP256r1"),
  ("2b2403030208010107", .inl "brainpoolP256r1"), ("2B2403030208010107", .inl "brainpoolP256r1"),
  ("brainpoolP384r1", .inl "brainpoolP384r1"), ("1.3.36.3.3.2.8.1.1.11", .inl "brainpoolP384r1"),
  ("2b240303020801010b", .inl "brainpoolP384r1"), ("2B240303020801010B", .inl "brainpoolP384r1"),
  ("brainpoolP512r1", .inl "brainpoolP512r1"), ("1.3.36.3.3.2.8.1.1.13", .inl "brainpoolP512r1"),
  ("2b240303020801010d", .inl "brainpoolP512r1"), ("2B240303020801010D", .inl "brainpoolP512r1")]

def s2kEnum : List (String × (String ⊕ Nat)) := [
  ("simple", .inr 0), ("salted", .inr 1), ("iterated", .inr 3), ("gnu", .inr 101)]

def publicKeyEnum : List (String × (String ⊕ Nat)) := [
  ("rsaEncryptSign", .inr 1), ("rsaEncrypt", .inr 2), ("rsaSign", .inr 3),
  ("elgamal", .inr 16), ("dsa", .inr 17), ("ecdh", .inr 18), ("ecdsa", .inr 19),
  ("eddsaLegacy", .inr 22), ("ed25519Legacy", .inr 22), ("eddsa", .inr 22),
  ("aedh", .inr 23), ("aedsa", .inr 24), ("x25519", .inr 25), ("x448", .inr 26),
  ("ed25519", .inr 27), ("ed448", .inr 28)]

def symmetricEnum : List (String × (String ⊕ Nat)) := [
  ("plaintext", .inr 0), ("idea", .inr 1), ("tripledes", .inr 2), ("cast5", .inr 3),
  ("blowfish", .inr 4), ("aes128", .inr 7), ("aes192", .inr 8), ("aes256", .inr 9),
  ("twofish", .inr 10)]

def compressionEnum : List (String × (String ⊕ Nat)) := [
  ("uncompressed", .inr 0), ("zip", .inr 1), ("zlib", .inr 2), ("bzip2", .inr 3)]

def hashEnum : List (String × (String ⊕ Nat)) := [
  ("md5", .inr 1), ("sha1", .inr 2), ("ripemd", .inr 3), ("sha256", .inr 8),
  ("sha384", .inr 9), ("sha512", .inr 10), ("sha224", .inr 11)]

def webHashEnum : List (String × (String ⊕ Nat)) := [
  ("SHA-1", .inr 2), ("SHA-256", .inr 8), ("SHA-384", .inr 9), ("SHA-512", .inr 10)]

def aeadEnum : List (String × (String ⊕ Nat)) := [
  ("eax", .inr 1), ("ocb", .inr 2), ("experimentalGCM", .inr 100)]

def packetEnum : List (String × (String ⊕ Nat)) := [
  ("publicKeyEncryptedSessionKey", .inr 1), ("signature", .inr 2),
  ("symEncryptedSessionKey", .inr 3), ("onePassSignature", .inr 4),
  ("secretKey", .inr 5), ("publicKey", .inr 6), ("secretSubkey", .inr 7),
  ("compressedData", .inr 8), ("symmetricallyEncryptedData", .inr 9),
  ("marker", .inr 10), ("literalData", .inr 11), ("trust", .inr 12),
  ("userID", .inr 13), ("publicSubkey", .inr 14), ("userAttribute", .inr 17),
  ("symEncryptedIntegrityProtectedData", .inr 18),
  ("modificationDetectionCode", .inr 19), ("aeadEncryptedData", .inr 20)]

def literalEnum : List (String × (String ⊕ Nat)) := [
  ("binary", .inr 98), ("text", .inr 116), ("utf8", .inr 117), ("mime", .inr 109)]

def signatureEnum : List (String × (String ⊕ Nat)) := [
  ("binary", .inr 0), ("text", .inr 1), ("standalone", .inr 2),
  ("certGeneric", .inr 16), ("certPersona", .inr 17), ("certCasual", .inr 18),
  ("certPositive", .inr 19), ("certRevocation", .inr 48), ("subkeyBinding", .inr 24),
  ("keyBinding", .inr 25), ("key", .inr 31), ("keyRevocation", .inr 32),
  ("subkeyRevocation", .inr 40), ("timestamp", .inr 64), ("thirdParty", .inr 80)]

def signatureSubpacketEnum : List (String × (String ⊕ Nat)) := [
  ("signatureCreationTime", .inr 2), ("signatureExpirationTime", .inr 3),
  ("exportableCertification", .inr 4), ("trustSignature", .inr 5),
  ("regularExpression", .inr 6), ("revocable", .inr 7), ("keyExpirationTime", .inr 9),
  ("placeholderBackwardsCompatibility", .inr 10), ("preferredSymmetricAlgorithms", .inr 11),
  ("revocationKey", .inr 12), ("issuer", .inr 16), ("notationData", .inr 20),
  ("preferredHashAlgorithms", .inr 21), ("preferredCompressionAlgorithms", .inr 22),
  ("keyServerPreferences", .inr 23), ("preferredKeyServer", .inr 24),
  ("primaryUserID", .inr 25), ("policyURI", .inr 26), ("keyFlags", .inr 27),
  ("signersUserID", .inr 28), ("reasonForRevocation", .inr 29), ("features", .inr 30),
  ("signatureTarget", .inr 31), ("embeddedSignature", .inr 32),
  ("issuerFingerprint", .inr 33), ("preferredAEADAlgorithms", .inr 34)]

def keyFlagsEnum : List (String × (String ⊕ Nat)) := [
  ("certifyKeys", .inr 1), ("signData", .inr 2), ("encryptCommunication", .inr 4),
  ("encryptStorage", .inr 8), ("splitPrivateKey", .inr 16), ("authentication", .inr 32),
  ("sharedPrivateKey", .inr 128)]

def armorEnum : List (String × (String ⊕ Nat)) := [
  ("multipartSection", .inr 0), ("multipartLast", .inr 1), ("signed", .inr 2),
  ("message", .inr 3), ("publicKey", .inr 4), ("privateKey", .inr 5),
  ("signature", .inr 6)]

def reasonForRevocationEnum : List (String × (String ⊕ Nat)) := [
  ("noReason", .inr 0), ("keySuperseded", .inr 1), ("keyCompromised", .inr 2),
  ("keyRetired", .inr 3), ("userIDInvalid", .inr 32)]

def featuresEnum : List (String × (String ⊕ Nat)) := [
  ("modificationDetection", .inr 1), ("aead", .inr 2), ("v5Keys", .inr 4)]

/-- All enum tables of the enums module, in declaration order. -/
def allEnumTables : List (List (String × (String ⊕ Nat))) := [
  curveEnum, s2kEnum, publicKeyEnum, symmetricEnum, compressionEnum, hashEnum,
  webHashEnum, aeadEnum, packetEnum, literalEnum, signatureEnum,
  signatureSubpacketEnum, keyFlagsEnum, armorEnum, reasonForRevocationEnum,
  featuresEnum]

/-! ## `enums.read` / `enums.write` (src/enums.js)

`read` lazily builds a reverse map `byValue` by assigning
`byValue[value] = key` over `Object.entries(type)` in insertion order, so
for a duplicated value the LAST entry wins; a numeric value with no entry
throws.  `write` converts a numeric argument through `read` and then
returns `type[name]`; a string argument is looked up directly. -/

def enumsRead (t : List (String × (String ⊕ Nat))) (e : Nat) : Option String :=
  (t.reverse.find? (fun kv => decide (kv.2 = .inr e))).map (·.1)

def enumsWrite (t : List (String × (String ⊕ Nat))) (e : String ⊕ Nat) :
    Option (String ⊕ Nat) :=
  match e with
  | .inr v =>
    match enumsRead t v with
    | none => none
    | some name => t.lookup name
  | .inl name => t.lookup name

/-! ### Claim C7: algorithm-ID registry stability -/

/-- C7: the numeric IDs exposed by the enums module equal the values
fixed in the spec: `enums.publicKey` maps rsaEncryptSign→1, rsaEncrypt→2,
rsaSign→3, elgamal→16, dsa→17, ecdh→18, ecdsa→19, eddsaLegacy→22,
x25519→25, x448→26, ed25519→27, ed448→28, and `enums.symmetric` maps
plaintext→0, tripledes→2, cast5→3, blowfish→4, aes128→7, aes192→8,
aes256→9, twofish→10 (stated through `enums.write`, the module's own
accessor). -/
theorem C7_algorithm_id_registry :
    enumsWrite publicKeyEnum (.inl "rsaEncryptSign") = some (.inr 1) ∧
    enumsWrite publicKeyEnum (.inl "rsaEncrypt") = some (.inr 2) ∧
    enumsWrite publicKeyEnum (.inl "rsaSign") = some (.inr 3) ∧
    enumsWrite publicKeyEnum (.inl "elgamal") = some (.inr 16) ∧
    enumsWrite publicKeyEnum (.inl "dsa") = some (.inr 17) ∧
    enumsWrite publicKeyEnum (.inl "ecdh") = some (.inr 18) ∧
    enumsWrite publicKeyEnum (.inl "ecdsa") = some (.inr 19) ∧
    enumsWrite publicKeyEnum (.inl "eddsaLegacy") = some (.inr 22) ∧
    enumsWrite publicKeyEnum (.inl "x25519") = some (.inr 25) ∧
    enumsWrite publicKeyEnum (.inl "x448") = some (.inr 26) ∧
    enumsWrite publicKeyEnum (.inl "ed25519") = some (.inr 27) ∧
    enumsWrite publicKeyEnum (.inl "ed448") = some (.inr 28) ∧
    enumsWrite symmetricEnum (.inl "plaintext") = some (.inr 0) ∧
    enumsWrite symmetricEnum (.inl "tripledes") = some (.inr 2) ∧
    enumsWrite symmetricEnum (.inl "cast5") = some (.inr 3) ∧
    enumsWrite symmetricEnum (.inl "blowfish") = some (.inr 4) ∧
    enumsWrite symmetricEnum (.inl "aes128") = some (.inr 7) ∧
    enumsWrite symmetricEnum (.inl "aes192") = some (.inr 8) ∧
    enumsWrite symmetricEnum (.inl "aes256") = some (.inr 9) ∧
    enumsWrite symmetricEnum (.inl "twofish") = some (.inr 10) :=
  ⟨rfl, rfl, rfl, rfl, rfl, rfl, rfl, rfl, rfl, rfl, rfl, rfl, rfl, rfl, rfl,
   rfl, rfl, rfl, rfl, rfl⟩

/-! ### Claim C10: enum value round trip and rejection -/

theorem allEnumTables_nodup_keys :
    ∀ t ∈ allEnumTables, (t.map Prod.fst).Nodup := by
  intro t ht
  simp only [allEnumTables, List.mem_cons, List.not_mem_nil, or_false] at ht
  rcases ht with rfl | rfl | rfl | rfl | rfl | rfl | rfl | rfl | rfl | rfl | rfl |
    rfl | rfl | rfl | rfl | rfl <;> decide

theorem lookup_of_mem_nodup (l : List (String × (String ⊕ Nat))) (k : String)
    (v : String ⊕ Nat) (hnd : (l.map Prod.fst).Nodup) (hmem : (k, v) ∈ l) :
    l.lookup k = some v := by
  induction l with
  | nil => simp at hmem
  | cons a l ih =>
    obtain ⟨k', v'⟩ := a
    rw [List.lookup_cons]
    rcases List.mem_cons.mp hmem with hhead | htail
    · obtain ⟨rfl, rfl⟩ := Prod.mk.injEq .. ▸ hhead
      simp
    · have hk : k ≠ k' := by
        rintro rfl
        have : k ∈ l.map Prod.fst := List.mem_map.mpr ⟨(k, v), htail, rfl⟩
        simp only [List.map_cons, List.nodup_cons] at hnd
        exact hnd.1 this
      rw [show (k == k') = false from beq_eq_false_iff_ne.mpr hk]
      exact ih (by simp only [List.map_cons, List.nodup_cons] at hnd; exact hnd.2) htail

/-- C10: for every enum table of the enums module and every numeric value
`v` assigned by some name of that table, `enums.write(table, v) = v` and
`enums.read(table, v)` returns a name that the table maps back to `v`;
for every numeric value not assigned in the table, both `read` and
`write` throw (= return `none`). -/
theorem C10_enum_read_write (t : List (String × (String ⊕ Nat)))
    (ht : t ∈ allEnumTables) (v : Nat) :
    ((∃ kv ∈ t, kv.2 = .inr v) →
       enumsWrite t (.inr v) = some (.inr v) ∧
       ∃ nm, enumsRead t v = some nm ∧ t.lookup nm = some (.inr v)) ∧
    ((¬ ∃ kv ∈ t, kv.2 = .inr v) →
       enumsRead t v = none ∧ enumsWrite t (.inr v) = none) := by
  have hnd : (t.map Prod.fst).Nodup := allEnumTables_nodup_keys t ht
  constructor
  · rintro ⟨kv, hkv, hv⟩
    have hsome : (t.reverse.find? (fun kv => decide (kv.2 = .inr v))).isSome := by
      rw [List.find?_isSome]
      exact ⟨kv, by simpa using hkv, by simp [hv]⟩
    obtain ⟨kv', hfind⟩ := Option.isSome_iff_exists.mp hsome
    have hv' : kv'.2 = .inr v := by
      have := List.find?_some hfind
      simpa using this
    have hmem' : kv' ∈ t := by
      have := List.mem_of_find?_eq_some hfind
      simpa using this
    have hlook : t.lookup kv'.1 = some (.inr v) := by
      have := lookup_of_mem_nodup t kv'.1 kv'.2 hnd (by simpa using hmem')
      rw [hv'] at this
      exact this
    have hread : enumsRead t v = some kv'.1 := by
      rw [enumsRead, hfind, Option.map_some']
    refine ⟨?_, kv'.1, hread, hlook⟩
    rw [enumsWrite, hread]
    exact hlook
  · intro hno
    have hnone : t.reverse.find? (fun kv => decide (kv.2 = .inr v)) = none := by
      rw [List.find?_eq_none]
      intro x hx
      simp only [decide_eq_true_eq]
      intro hc
      exact hno ⟨x, by simpa using hx, hc⟩
    have hread : enumsRead t v = none := by rw [enumsRead, hnone, Option.map_none']
    refine ⟨hread, ?_⟩
    rw [enumsWrite, hread]

/-- Witness for C10 at the `publicKey` table, values 1 (assigned) and 5
(unassigned). -/
theorem C10_enum_read_write_witness :
    publicKeyEnum ∈ allEnumTables ∧
    ((∃ kv ∈ publicKeyEnum, kv.2 = .inr 1) →
       enumsWrite publicKeyEnum (.inr 1) = some (.inr 1) ∧
       ∃ nm, enumsRead publicKeyEnum 1 = some nm ∧
         publicKeyEnum.lookup nm = some (.inr 1)) ∧
    ((¬ ∃ kv ∈ publicKeyEnum, kv.2 = .inr 5) →
       enumsRead publicKeyEnum 5 = none ∧ enumsWrite publicKeyEnum (.inr 5) = none) :=
  have hmem : publicKeyEnum ∈ allEnumTables := by
    rw [allEnumTables]
    exact List.mem_cons_of_mem _ (List.mem_cons_of_mem _ (List.mem_cons_self _ _))
  ⟨hmem, (C10_enum_read_write publicKeyEnum hmem 1).1,
    (C10_enum_read_write publicKeyEnum hmem 5).2⟩

/-! ## `GCM.getNonce` (src/crypto/mode/gcm.js)

`const nonce = iv.slice()` allocates a copy, so the loop
`nonce[4 + i] ^= chunkIndex[i]` mutates only the copy.  We return the
pair (iv after the call, nonce) to record that the input array is left
unmodified.  An out-of-range `Uint8Array` store is a no-op, matching
`List.set`. -/

def getNonce (iv chunkIndex : List Nat) : List Nat × List Nat :=
  let nonce := iv
  let nonce := (List.range chunkIndex.length).foldl
    (fun nonce i => nonce.set (4 + i) ((nonce.getD (4 + i) 0) ^^^ (chunkIndex.getD i 0)))
    nonce
  (iv, nonce)

/-! ### Claim C8: GCM per-chunk nonce derivation -/

/-- C8: for every 12-byte IV and 8-byte chunk index, `GCM.getNonce`
leaves the IV unmodified (first component) and returns a 12-byte nonce
whose first 4 bytes are the IV's first 4 bytes and whose last 8 bytes
are the IV's last 8 bytes XORed byte-wise with the chunk index. -/
theorem C8_gcm_getNonce (a0 a1 a2 a3 a4 a5 a6 a7 a8 a9 a10 a11
    c0 c1 c2 c3 c4 c5 c6 c7 : Nat) :
    getNonce [a0, a1, a2, a3, a4, a5, a6, a7, a8, a9, a10, a11]
        [c0, c1, c2, c3, c4, c5, c6, c7] =
      ([a0, a1, a2, a3, a4, a5, a6, a7, a8, a9, a10, a11],
       [a0, a1, a2, a3, a4 ^^^ c0, a5 ^^^ c1, a6 ^^^ c2, a7 ^^^ c3,
        a8 ^^^ c4, a9 ^^^ c5, a10 ^^^ c6, a11 ^^^ c7]) := by
  rfl

/-! ## RSA (src/crypto/public_key/rsa.js)

`BigInteger` values are embedded as `Nat`; `new BigInteger(bytes)` of a
big-endian byte array is `readBE`, `x.toUint8Array('be', len)` is
`toUint8ArrayBE x len`, `x.byteLength()` is `byteLength x`, and
`x.modExp(k, n)` is `x ^ k % n`. -/

def bitLenAux : Nat → Nat → Nat
  | 0, _ => 0
  | fuel + 1, n => if n = 0 then 0 else bitLenAux fuel (n / 2) + 1

/-- `x.bitLength()`: the number of binary digits of `x`. -/
def bitLen (n : Nat) : Nat := bitLenAux n n

theorem bitLenAux_zero (fuel : Nat) : bitLenAux fuel 0 = 0 := by
  cases fuel <;> rfl

theorem bitLenAux_bounds (fuel : Nat) : ∀ n ≤ fuel,
    n < 2 ^ bitLenAux fuel n ∧ (n ≠ 0 → 2 ^ (bitLenAux fuel n - 1) ≤ n) := by
  induction fuel with
  | zero =>
    intro n hn
    interval_cases n
    exact ⟨by norm_num, by simp⟩
  | succ fuel ih =>
    intro n hn
    by_cases h0 : n = 0
    · subst h0
      rw [bitLenAux_zero]
      exact ⟨by norm_num, by simp⟩
    · have hrec : bitLenAux (fuel + 1) n = bitLenAux fuel (n / 2) + 1 := by
        rw [bitLenAux, if_neg h0]
      have hhalf : n / 2 ≤ fuel := by omega
      obtain ⟨hub, hlb⟩ := ih (n / 2) hhalf
      rw [hrec]
      set L := bitLenAux fuel (n / 2) with hL
      constructor
      · have h2 : 2 ^ (L + 1) = 2 * 2 ^ L := by ring
        omega
      · intro _
        by_cases hz : n / 2 = 0
        · rw [hz, bitLenAux_zero] at hL
          rw [hL]
          simpa using Nat.one_le_iff_ne_zero.mpr h0
        · have hlb' := hlb hz
          have hL1 : 1 ≤ L := by
            by_contra hc
            push_neg at hc
            interval_cases L
            omega
          have h2 : 2 ^ (L + 1 - 1) = 2 * 2 ^ (L - 1) := by
            rw [show L + 1 - 1 = (L - 1) + 1 from by omega]
            ring
          omega

theorem bitLen_eq_size (n : Nat) : bitLen n = Nat.size n := by
  obtain ⟨hub, hlb⟩ := bitLenAux_bounds n n le_rfl
  rw [bitLen]
  by_cases h0 : n = 0
  · subst h0
    rw [bitLenAux_zero, Nat.size_zero]
  · have hup : Nat.size n ≤ bitLenAux n n := Nat.size_le.mpr hub
    have hpos : 1 ≤ bitLenAux n n := by
      by_contra hc
      push_neg at hc
      have hz : bitLenAux n n = 0 := by omega
      rw [hz] at hub
      norm_num at hub
      omega
    have hlo : bitLenAux n n - 1 < Nat.size n := Nat.lt_size.mpr (hlb h0)
    omega

def byteLength (n : Nat) : Nat := (bitLen n + 7) / 8

def readBE (bytes : List Nat) : Nat := bytes.foldl (fun a b => a * 256 + b) 0

def toUint8ArrayBE (x len : Nat) : List Nat :=
  (List.range len).map (fun i => x / 256 ^ (len - 1 - i) % 256)

/-! ## `validateParams` (src/crypto/public_key/rsa.js)

The random blinding value drawn from `getRandomBigInteger` inside the
function is made an explicit parameter `r`.  Each failed check returns
`false` in source order. -/

def validateParams (n e d p q u r : Nat) : Bool :=
  if ¬ (p * q = n) then false
  else if ¬ ((p * u) % q = 1) then false
  else
    let rde := r * d * e
    if ¬ (rde % (p - 1) = r ∧ rde % (q - 1) = r) then false
    else true

/-! ### Claim C3: RSA parameter validation -/

/-- C3: for every tuple (n, e, d, p, q, u) with p, q ≥ 2 (so that the
JavaScript big-integer operations are total) and every drawn blinding
value r, `validateParams` returns true exactly when p·q = n,
p·u ≡ 1 (mod q), and r·d·e ≡ r both (mod p−1) and (mod q−1); whenever a
check fails it returns false rather than throwing. -/
theorem C3_rsa_validateParams (n e d p q u r : Nat) (_hp : 2 ≤ p) (_hq : 2 ≤ q) :
    validateParams n e d p q u r = true ↔
      (p * q = n ∧ (p * u) % q = 1 ∧
       (r * d * e) % (p - 1) = r ∧ (r * d * e) % (q - 1) = r) := by
  simp only [validateParams]
  split_ifs with h1 h2 h3 <;>
    simp only [Bool.false_eq_true, false_iff, true_iff] <;>
    tauto

/-- Witness for C3 at (n, e, d, p, q, u, r) = (15, 3, 3, 3, 5, 2, 1). -/
theorem C3_rsa_validateParams_witness :
    2 ≤ 3 ∧ 2 ≤ 5 ∧
      (validateParams 15 3 3 3 5 2 1 = true ↔
        (3 * 5 = 15 ∧ (3 * 2) % 5 = 1 ∧
         (1 * 3 * 3) % (3 - 1) = 1 ∧ (1 * 3 * 3) % (5 - 1) = 1)) :=
  ⟨by decide, by decide, C3_rsa_validateParams 15 3 3 3 5 2 1 (by decide) (by decide)⟩

/-! ## PKCS#1 EME decoding and RSA decryption -/

/-- `unblinder.modInv(n)`: the modular inverse, `none` (throw) when the
operands are not coprime.  For coprime operands and `n ≥ 2` the inverse
in `[0, n)` is unique, so realizing it by search gives the same value as
the extended-gcd computation in the source's big-integer library. -/
def modInvOpt (a n : Nat) : Option Nat :=
  if Nat.gcd a n = 1 then (List.range n).find? (fun x => a * x % n == 1) else none

/-- Modelled from the spec: the padding check of `emeDecode` from
`crypto/pkcs1.js`, which is not part of src/.  EME-PKCS1-v1.5 decoding:
a valid encoding is `0x00 0x02 ‖ PS ‖ 0x00 ‖ M` with at least eight
non-zero padding bytes PS; the payload is everything after the zero
separator.  `none` = padding failure. -/
def emeDecodePayload (em : List Nat) : Option (List Nat) :=
  match em with
  | 0 :: 2 :: rest =>
    let ps := rest.takeWhile (fun b => b != 0)
    if ps.length < 8 ∨ ps.length = rest.length then none
    else some (rest.drop (ps.length + 1))
  | _ => none

/-- Modelled from the spec: `emeDecode(encoded, randomPayload)` from
`crypto/pkcs1.js`.  On a padding failure the caller-supplied
`randomPayload` is returned when available, otherwise the function
throws (`none`). -/
def emeDecode (em : List Nat) (randomPayload : Option (List Nat)) : Option (List Nat) :=
  match emeDecodePayload em with
  | some m => some m
  | none => randomPayload

/-! ## `bnDecrypt` (src/crypto/public_key/rsa.js)

Blinded CRT decryption.  The random unblinder drawn from
`getRandomBigInteger(2, n)` is the explicit parameter `r`; `data ≥ n`
throws `'Data too large.'`.  `u.mul(mq.sub(mp)).mod(q)` is computed over
`Int` with `Int.emod` (the wrapped big integer `mod` is non-negative),
then cast back.  `bnDecryptEM` is the decryption up to the padded
message bytes handed to `emeDecode`. -/

def bnDecryptEM (data n e d p q u r : Nat) : Option (List Nat) :=
  if data ≥ n then none
  else
    let dq := d % (q - 1)
    let dp := d % (p - 1)
    let unblinder := r % n
    match modInvOpt unblinder n with
    | none => none
    | some inv =>
      let blinder := (inv ^ e) % n
      let blinded := (data * blinder) % n
      let mp := blinded ^ dp % p
      let mq := blinded ^ dq % q
      let hq := (((u : Int) * ((mq : Int) - (mp : Int))) % (q : Int)).toNat
      let result := hq * p + mp
      let result := (result * unblinder) % n
      some (toUint8ArrayBE result (byteLength n))

def bnDecrypt (data n e d p q u r : Nat) (randomPayload : Option (List Nat)) :
    Option (List Nat) :=
  match bnDecryptEM data n e d p q u r with
  | none => none
  | some em => emeDecode em randomPayload

/-- `decrypt` (src/crypto/public_key/rsa.js) forwards to `bnDecrypt`. -/
def decrypt (data n e d p q u r : Nat) (randomPayload : Option (List Nat)) :
    Option (List Nat) :=
  bnDecrypt data n e d p q u r randomPayload

/-! ### Claim C4: constant-time PKCS#1 decryption substitution -/

/-- C4: for every RSA private key and ciphertext smaller than the
modulus whose decryption reaches the padding check (`bnDecryptEM` =
`some em`) and fails it, `decrypt` raises an error (`none`) when
`randomPayload` is not supplied, and with `randomPayload` supplied it
never raises but returns the caller-supplied random payload. -/
theorem C4_constant_time_pkcs1 (data n e d p q u r : Nat) (em : List Nat)
    (hem : bnDecryptEM data n e d p q u r = some em)
    (hbad : emeDecodePayload em = none) :
    decrypt data n e d p q u r none = none ∧
      ∀ rp : List Nat, decrypt data n e d p q u r (some rp) = some rp := by
  constructor
  · simp only [decrypt, bnDecrypt, hem, emeDecode, hbad]
  · intro rp
    simp only [decrypt, bnDecrypt, hem, emeDecode, hbad]

/-- Witness for C4 at the RSA key (n, e, d, p, q, u) = (143, 7, 103, 11, 13, 4),
ciphertext 2, blinding value 2: the one-byte decryption `[140]` fails the
padding check. -/
theorem C4_constant_time_pkcs1_witness :
    bnDecryptEM 2 143 7 103 11 13 4 2 = some [140] ∧
      emeDecodePayload [140] = none ∧
      (decrypt 2 143 7 103 11 13 4 2 none = none ∧
        ∀ rp : List Nat, decrypt 2 143 7 103 11 13 4 2 (some rp) = some rp) :=
  ⟨by decide, by decide,
    C4_constant_time_pkcs1 2 143 7 103 11 13 4 2 [140] (by decide) (by decide)⟩

/-! ## `util.canonicalizeEOL` (src/util.js)

The streaming transform keeps one bit of state, `carryOverCR`.  Per
chunk: a carried CR is prepended; a trailing CR is held back (and sets
the carry); the `indexOf`-loop collects, in increasing order, the
positions just after each LF whose preceding byte is not CR (`indices`,
position 0 counts since `bytes[-1]` is `undefined`), and the
copy-and-overwrite loop rebuilds the chunk with each such LF replaced by
CR LF.  The flush callback emits the carried CR. -/

def bareLFIndices (bytes : List Nat) : List Nat :=
  ((List.range bytes.length).filter
    (fun p => bytes.getD p 0 == 10 && (p == 0 || bytes.getD (p - 1) 0 != 13))).map (· + 1)

/-- The construction of `normalized`: for each index, the segment up to
and including the bare LF is copied with the LF overwritten by CR and an
LF appended; the remainder after the last index follows verbatim. -/
def buildNormalized (bytes : List Nat) : Nat → List Nat → List Nat
  | lo, [] => bytes.drop lo
  | lo, idx :: rest =>
    ((bytes.drop lo).take (idx - lo)).dropLast ++ [13, 10] ++ buildNormalized bytes idx rest

def insertCRs (bytes : List Nat) : List Nat :=
  let indices := bareLFIndices bytes
  if indices.isEmpty then bytes else buildNormalized bytes 0 indices

def pushBytes (carryOverCR : Bool) (chunk : List Nat) : List Nat × Bool :=
  let bytes := if carryOverCR then 13 :: chunk else chunk
  if bytes.getLast? = some 13 then (insertCRs bytes.dropLast, true)
  else (insertCRs bytes, false)

def runChunks : Bool → List (List Nat) → List Nat
  | c, [] => if c then [13] else []
  | c, ch :: rest =>
    let r := pushBytes c ch
    r.1 ++ runChunks r.2 rest

/-- `util.canonicalizeEOL` over a chunked input stream: the concatenation
of all chunk outputs followed by the flush output. -/
def canonicalizeEOL (chunks : List (List Nat)) : List Nat := runChunks false chunks

/-- Specification-side canonicalization (LF→CRLF): scan left to right
and replace every LF not immediately preceded by CR with CR LF; `prev`
is the byte before the current position (256 = no previous byte). -/
def canonSpec (prev : Nat) : List Nat → List Nat
  | [] => []
  | b :: rest => (if b = 10 ∧ prev ≠ 13 then [13, 10] else [b]) ++ canonSpec b rest

/-- The byte before position `p`, seen from a context whose own previous
byte is `prev` (256 = none, and `bytes[-1]` is `undefined ≠ CR`). -/
def prevOf (prev : Nat) (xs : List Nat) (p : Nat) : Nat :=
  if p = 0 then prev else xs.getD (p - 1) 0

theorem prevOf_zero (prev : Nat) (xs : List Nat) : prevOf prev xs 0 = prev := rfl

theorem prevOf_cons_succ (prev b : Nat) (rest : List Nat) (p : Nat) :
    prevOf prev (b :: rest) (p + 1) = prevOf b rest p := by
  rw [prevOf, prevOf, if_neg (by omega)]
  cases p with
  | zero => simp
  | succ k => simp

theorem getD_cons_succ' (b : Nat) (rest : List Nat) (p : Nat) :
    (b :: rest).getD (p + 1) 0 = rest.getD p 0 := List.getD_cons_succ

/-- Membership in `bareLFIndices`: exactly the positions-after of LF
bytes whose previous byte is not CR. -/
theorem mem_bareLFIndices (l : List Nat) (idx : Nat) :
    idx ∈ bareLFIndices l ↔
      ∃ p, idx = p + 1 ∧ p < l.length ∧ l.getD p 0 = 10 ∧ prevOf 256 l p ≠ 13 := by
  rw [bareLFIndices]
  simp only [List.mem_map, List.mem_filter, List.mem_range, Bool.and_eq_true,
    beq_iff_eq, Bool.or_eq_true, bne_iff_ne, ne_eq]
  constructor
  · rintro ⟨p, ⟨⟨hplen, h10, hprev⟩, rfl⟩⟩
    refine ⟨p, rfl, hplen, h10, ?_⟩
    rw [prevOf]
    rcases hprev with h0 | hne
    · rw [if_pos (by simpa using h0)]
      omega
    · split
      · omega
      · exact hne
  · rintro ⟨p, rfl, hplen, h10, hprev⟩
    refine ⟨p, ⟨⟨hplen, h10, ?_⟩, rfl⟩⟩
    rw [prevOf] at hprev
    by_cases h0 : p = 0
    · left
      simpa using h0
    · right
      rw [if_neg h0] at hprev
      exact hprev

theorem bareLFIndices_sorted (l : List Nat) :
    (bareLFIndices l).Pairwise (· < ·) := by
  rw [bareLFIndices, List.pairwise_map]
  have hsub := List.Pairwise.sublist (List.filter_sublist (l := List.range l.length)
    (p := fun p => l.getD p 0 == 10 && (p == 0 || l.getD (p - 1) 0 != 13)))
    (List.pairwise_lt_range l.length)
  exact hsub.imp (by omega)

theorem getD_lt_length (l : List Nat) (p : Nat) (h : l.getD p 0 = 10) : p < l.length := by
  by_contra hc
  push_neg at hc
  rw [List.getD_eq_default _ _ hc] at h
  omega

theorem getD_drop' (l : List Nat) (lo p : Nat) :
    (l.drop lo).getD p 0 = l.getD (lo + p) 0 := by
  rw [List.getD_eq_getElem?_getD, List.getD_eq_getElem?_getD, List.getElem?_drop]

theorem prevOf_drop (l : List Nat) (lo p : Nat) :
    prevOf (prevOf 256 l lo) (l.drop lo) p = prevOf 256 l (lo + p) := by
  cases p with
  | zero => rw [prevOf_zero, Nat.add_zero]
  | succ k =>
    rw [prevOf, if_neg (by omega), prevOf, if_neg (by omega), getD_drop',
      show lo + (k + 1 - 1) = lo + (k + 1) - 1 from by omega]

/-- A stretch with no bare LF is canonicalized to itself. -/
theorem canonSpec_eq_self (xs : List Nat) : ∀ prev : Nat,
    (∀ p, ¬ (xs.getD p 0 = 10 ∧ prevOf prev xs p ≠ 13)) → canonSpec prev xs = xs := by
  induction xs with
  | nil => intro prev _; rfl
  | cons b rest ih =>
    intro prev h
    have h0 := h 0
    rw [List.getD_cons_zero, prevOf_zero] at h0
    rw [canonSpec, if_neg h0, List.singleton_append]
    congr 1
    apply ih b
    intro p
    have hp := h (p + 1)
    rw [getD_cons_succ', prevOf_cons_succ] at hp
    exact hp

/-- Splitting the canonicalization at the first bare LF (position `k`). -/
theorem canonSpec_split_first (k : Nat) : ∀ (xs : List Nat) (prev : Nat),
    xs.getD k 0 = 10 → prevOf prev xs k ≠ 13 →
    (∀ p < k, ¬ (xs.getD p 0 = 10 ∧ prevOf prev xs p ≠ 13)) →
    canonSpec prev xs = xs.take k ++ [13, 10] ++ canonSpec 10 (xs.drop (k + 1)) := by
  induction k with
  | zero =>
    intro xs prev h10 hprev _
    cases xs with
    | nil => simp at h10
    | cons b rest =>
      rw [List.getD_cons_zero] at h10
      rw [prevOf_zero] at hprev
      subst h10
      rw [canonSpec, if_pos ⟨rfl, hprev⟩]
      simp
  | succ k ih =>
    intro xs prev h10 hprev hmin
    cases xs with
    | nil => simp at h10
    | cons b rest =>
      have h0 := hmin 0 (by omega)
      rw [List.getD_cons_zero, prevOf_zero] at h0
      rw [getD_cons_succ'] at h10
      rw [prevOf_cons_succ] at hprev
      have hmin' : ∀ p < k, ¬ (rest.getD p 0 = 10 ∧ prevOf b rest p ≠ 13) := by
        intro p hp
        have := hmin (p + 1) (by omega)
        rw [getD_cons_succ', prevOf_cons_succ] at this
        exact this
      rw [canonSpec, if_neg h0, List.singleton_append, ih rest b h10 hprev hmin',
        List.take_succ_cons, List.drop_succ_cons]
      rfl

/-- Canonicalization distributes over append, threading the last byte of
the left part as the previous byte of the right part. -/
theorem canonSpec_append (A : List Nat) : ∀ (B : List Nat) (prev : Nat),
    canonSpec prev (A ++ B) = canonSpec prev A ++ canonSpec (A.getLastD prev) B := by
  induction A with
  | nil => intro B prev; rfl
  | cons a A ih =>
    intro B prev
    rw [List.cons_append, canonSpec, canonSpec, ih B a, List.getLastD_cons,
      List.append_assoc]

/-- The previous byte only matters through the comparison with CR. -/
theorem canonSpec_prev_ne13 (xs : List Nat) (p q : Nat) (hp : p ≠ 13) (hq : q ≠ 13) :
    canonSpec p xs = canonSpec q xs := by
  cases xs with
  | nil => rfl
  | cons b rest =>
    rw [canonSpec, canonSpec]
    congr 1
    by_cases hb : b = 10 <;> simp [hb, hp, hq]

theorem canonSpec_cons13 (prev : Nat) (xs : List Nat) :
    canonSpec prev (13 :: xs) = 13 :: canonSpec 13 xs := by
  rw [canonSpec, if_neg (by simp)]
  rfl

/-- The `normalized` construction of `canonicalizeEOL` equals the
specification-side canonicalization on the remaining suffix, given that
the index list consists of exactly the bare-LF positions at or after
`lo`, in increasing order. -/
theorem buildNormalized_eq_canonSpec (idxs : List Nat) : ∀ (l : List Nat) (lo : Nat),
    (∀ idx ∈ idxs, lo < idx ∧ idx ≤ l.length ∧ l.getD (idx - 1) 0 = 10 ∧
      prevOf 256 l (idx - 1) ≠ 13) →
    (∀ p, lo ≤ p → l.getD p 0 = 10 → prevOf 256 l p ≠ 13 → (p + 1) ∈ idxs) →
    idxs.Pairwise (· < ·) →
    buildNormalized l lo idxs = canonSpec (prevOf 256 l lo) (l.drop lo) := by
  induction idxs with
  | nil =>
    intro l lo _ hc _
    rw [buildNormalized]
    refine (canonSpec_eq_self (l.drop lo) (prevOf 256 l lo) ?_).symm
    intro p
    rintro ⟨h10, hprev⟩
    rw [getD_drop'] at h10
    rw [prevOf_drop] at hprev
    exact List.not_mem_nil _ (hc (lo + p) (by omega) h10 hprev)
  | cons idx rest ih =>
    intro l lo hm hc hs
    obtain ⟨hlo, hlen, h10, hprev⟩ := hm idx (List.mem_cons_self idx rest)
    have hrest_gt : ∀ j ∈ rest, idx < j := (List.pairwise_cons.mp hs).1
    have hmin : ∀ p, lo ≤ p → p < idx - 1 →
        ¬ (l.getD p 0 = 10 ∧ prevOf 256 l p ≠ 13) := by
      rintro p hplo hpidx ⟨hp10, hpprev⟩
      have hmem := hc p hplo hp10 hpprev
      rcases List.mem_cons.mp hmem with heq | hin
      · omega
      · have := hrest_gt _ hin
        omega
    have hk10 : (l.drop lo).getD (idx - 1 - lo) 0 = 10 := by
      rw [getD_drop', show lo + (idx - 1 - lo) = idx - 1 from by omega]
      exact h10
    have hkprev : prevOf (prevOf 256 l lo) (l.drop lo) (idx - 1 - lo) ≠ 13 := by
      rw [prevOf_drop, show lo + (idx - 1 - lo) = idx - 1 from by omega]
      exact hprev
    have hkmin : ∀ p < idx - 1 - lo,
        ¬ ((l.drop lo).getD p 0 = 10 ∧ prevOf (prevOf 256 l lo) (l.drop lo) p ≠ 13) := by
      rintro p hp ⟨hp10, hpprev⟩
      rw [getD_drop'] at hp10
      rw [prevOf_drop] at hpprev
      exact hmin (lo + p) (by omega) (by omega) ⟨hp10, hpprev⟩
    rw [canonSpec_split_first (idx - 1 - lo) (l.drop lo) (prevOf 256 l lo)
      hk10 hkprev hkmin]
    rw [buildNormalized]
    have hih : buildNormalized l idx rest = canonSpec (prevOf 256 l idx) (l.drop idx) := by
      apply ih
      · intro j hj
        obtain ⟨_, h2, h3, h4⟩ := hm j (List.mem_cons_of_mem _ hj)
        exact ⟨hrest_gt j hj, h2, h3, h4⟩
      · intro p hp hp10 hpprev
        have hmem := hc p (by omega) hp10 hpprev
        rcases List.mem_cons.mp hmem with heq | hin
        · omega
        · exact hin
      · exact (List.pairwise_cons.mp hs).2
    rw [hih]
    have hprev_idx : prevOf 256 l idx = 10 := by
      rw [prevOf, if_neg (by omega)]
      exact h10
    rw [hprev_idx]
    have hdrop_drop : (l.drop lo).drop (idx - 1 - lo + 1) = l.drop idx := by
      rw [List.drop_drop]
      congr 1
      omega
    rw [hdrop_drop]
    have htake : ((l.drop lo).take (idx - lo)).dropLast = (l.drop lo).take (idx - 1 - lo) := by
      rw [List.dropLast_eq_take, List.take_take, List.length_take, List.length_drop]
      congr 1
      omega
    rw [htake]

/-- The per-chunk transform body equals the specification-side
canonicalization with no previous byte. -/
theorem insertCRs_eq_canonSpec (l : List Nat) : insertCRs l = canonSpec 256 l := by
  rw [insertCRs]
  by_cases hemp : (bareLFIndices l).isEmpty
  · rw [if_pos hemp]
    refine (canonSpec_eq_self l 256 ?_).symm
    rintro p ⟨h10, hprev⟩
    have hmem : (p + 1) ∈ bareLFIndices l :=
      (mem_bareLFIndices l (p + 1)).mpr ⟨p, rfl, getD_lt_length l p h10, h10, hprev⟩
    rw [List.isEmpty_iff] at hemp
    rw [hemp] at hmem
    exact List.not_mem_nil _ hmem
  · rw [if_neg hemp]
    have h := buildNormalized_eq_canonSpec (bareLFIndices l) l 0 ?_ ?_ (bareLFIndices_sorted l)
    · rw [h, List.drop_zero, prevOf_zero]
    · intro idx hidx
      obtain ⟨p, rfl, hplen, h10, hprev⟩ := (mem_bareLFIndices l idx).mp hidx
      exact ⟨by omega, by omega, by simpa using h10, by simpa using hprev⟩
    · intro p _ h10 hprev
      exact (mem_bareLFIndices l (p + 1)).mpr ⟨p, rfl, getD_lt_length l p h10, h10, hprev⟩

/-- The chunked stream transform computes the specification-side
canonicalization of the whole stream (with a carried CR prepended). -/
theorem runChunks_eq_canonSpec (chunks : List (List Nat)) : ∀ c : Bool,
    runChunks c chunks = canonSpec 256 ((if c then [13] else []) ++ chunks.join) := by
  induction chunks with
  | nil =>
    intro c
    cases c with
    | true =>
      rw [runChunks]
      simp [canonSpec_cons13, canonSpec]
    | false =>
      rfl
  | cons ch rest ih =>
    intro c
    have hjoin : (if c then [13] else []) ++ (ch :: rest).join =
        (if c then 13 :: ch else ch) ++ rest.join := by
      cases c <;> simp
    rw [hjoin]
    set bytes := if c then 13 :: ch else ch with hbytes
    rw [show runChunks c (ch :: rest) =
        (pushBytes c ch).1 ++ runChunks (pushBytes c ch).2 rest from rfl]
    by_cases hlast : bytes.getLast? = some 13
    · have hne : bytes ≠ [] := by
        intro hnil
        rw [hnil] at hlast
        simp at hlast
      have hpb : pushBytes c ch = (insertCRs bytes.dropLast, true) := by
        rw [pushBytes, ← hbytes, if_pos hlast]
      have hsplit : bytes = bytes.dropLast ++ [13] := by
        have h13 : bytes.getLast hne = 13 := by
          have := List.getLast?_eq_getLast bytes hne
          rw [hlast] at this
          exact (Option.some_injective _ this.symm)
        conv_lhs => rw [← List.dropLast_append_getLast hne]
        rw [h13]
      rw [hpb]
      simp only
      rw [ih true, insertCRs_eq_canonSpec]
      conv_rhs => rw [hsplit]
      rw [List.append_assoc, List.singleton_append,
        canonSpec_append bytes.dropLast (13 :: rest.join) 256, canonSpec_cons13,
        show ((if true = true then ([13] : List Nat) else [])) = [13] from rfl,
        List.singleton_append, canonSpec_cons13]
    · have hpb : pushBytes c ch = (insertCRs bytes, false) := by
        rw [pushBytes, ← hbytes, if_neg hlast]
      rw [hpb]
      simp only
      rw [ih false, insertCRs_eq_canonSpec,
        show ((if false = true then ([13] : List Nat) else [])) = [] from rfl,
        List.nil_append, canonSpec_append bytes rest.join 256]
      congr 1
      apply canonSpec_prev_ne13
      · omega
      · rw [List.getLastD_eq_getLast?]
        cases hcase : bytes.getLast? with
        | none => simp
        | some a =>
          have : a ≠ 13 := by
            intro h13
            rw [h13] at hcase
            exact hlast hcase
          simpa using this

/-- Every LF in the canonicalized output is preceded by CR, except that
a leading LF can only appear when the previous byte was already CR. -/
theorem canonSpec_lf_preceded (xs : List Nat) : ∀ (prev : Nat) (i : Nat),
    (canonSpec prev xs).getD i 0 = 10 →
      (if i = 0 then prev = 13 else (canonSpec prev xs).getD (i - 1) 0 = 13) := by
  induction xs with
  | nil =>
    intro prev i hi
    simp [canonSpec] at hi
  | cons b rest ih =>
    intro prev i hi
    by_cases hbare : b = 10 ∧ prev ≠ 13
    · have hb10 := hbare.1
      rw [canonSpec, if_pos hbare] at hi ⊢
      match i, hi with
      | 0, hi => simp at hi
      | 1, hi => simp
      | (j + 2), hi =>
        rw [List.getD_append_right _ _ _ _ (by simp)] at hi
        have hi' : (canonSpec b rest).getD j 0 = 10 := by simpa using hi
        have hres := ih b j hi'
        rw [if_neg (by omega)]
        by_cases hj : j = 0
        · subst hj
          rw [if_pos rfl] at hres
          omega
        · rw [if_neg hj] at hres
          rw [List.getD_append_right _ _ _ _ (by simp; omega)]
          have hidx : j + 2 - 1 - ([13, 10] : List Nat).length = j - 1 := by
            simp only [List.length_cons, List.length_nil]
            omega
          rw [hidx]
          exact hres
    · rw [canonSpec, if_neg hbare, List.singleton_append] at hi ⊢
      match i, hi with
      | 0, hi =>
        rw [List.getD_cons_zero] at hi
        simp only [if_pos rfl]
        subst hi
        by_contra hne
        exact hbare ⟨rfl, hne⟩
      | (j + 1), hi =>
        rw [List.getD_cons_succ] at hi
        have hres := ih b j hi
        rw [if_neg (by omega)]
        by_cases hj : j = 0
        · subst hj
          rw [if_pos rfl] at hres
          simpa using hres
        · rw [if_neg hj] at hres
          rw [show j + 1 - 1 = (j - 1) + 1 from by omega, List.getD_cons_succ]
          exact hres

/-- Bytes other than CR and LF pass through canonicalization unchanged
and in order. -/
theorem canonSpec_filter_non_eol (xs : List Nat) : ∀ prev : Nat,
    (canonSpec prev xs).filter (fun b => b != 13 && b != 10) =
      xs.filter (fun b => b != 13 && b != 10) := by
  induction xs with
  | nil => intro prev; rfl
  | cons b rest ih =>
    intro prev
    have hpiece : ((if b = 10 ∧ prev ≠ 13 then [13, 10] else [b]) : List Nat).filter
        (fun b => b != 13 && b != 10) = [b].filter (fun b => b != 13 && b != 10) := by
      by_cases hb : b = 10 ∧ prev ≠ 13
      · rw [if_pos hb, hb.1]
        rfl
      · rw [if_neg hb]
    rw [canonSpec, List.filter_append, ih b, hpiece, ← List.filter_append,
      List.singleton_append]

/-! ### Claim C9: text canonicalization LF→CRLF -/

/-- C9: for every input byte sequence delivered as any sequence of
chunks, `util.canonicalizeEOL` computes the LF→CRLF canonicalization of
the concatenated input (`canonSpec` with no previous byte): every LF
byte in the output is immediately preceded by a CR byte, LF bytes
already preceded by CR are left unchanged (this is the `canonSpec`
equality, whose CR-LF case keeps the pair verbatim), and all
non-line-ending bytes are preserved in their original order. -/
theorem C9_canonicalizeEOL (chunks : List (List Nat)) :
    canonicalizeEOL chunks = canonSpec 256 chunks.join ∧
    (∀ i, (canonicalizeEOL chunks).getD i 0 = 10 →
      1 ≤ i ∧ (canonicalizeEOL chunks).getD (i - 1) 0 = 13) ∧
    (canonicalizeEOL chunks).filter (fun b => b != 13 && b != 10) =
      chunks.join.filter (fun b => b != 13 && b != 10) := by
  have heq : canonicalizeEOL chunks = canonSpec 256 chunks.join := by
    rw [canonicalizeEOL, runChunks_eq_canonSpec chunks false]
    rfl
  refine ⟨heq, ?_, ?_⟩
  · intro i hi
    rw [heq] at hi ⊢
    have hres := canonSpec_lf_preceded chunks.join 256 i hi
    by_cases h0 : i = 0
    · rw [if_pos h0] at hres
      omega
    · rw [if_neg h0] at hres
      exact ⟨by omega, hres⟩
  · rw [heq]
    exact canonSpec_filter_non_eol chunks.join 256

/-! ### Big-endian byte conversion lemmas -/

theorem toUint8ArrayBE_length (x len : Nat) : (toUint8ArrayBE x len).length = len := by
  simp [toUint8ArrayBE]

theorem toUint8ArrayBE_lt (x len : Nat) : ∀ b ∈ toUint8ArrayBE x len, b < 256 := by
  intro b hb
  rw [toUint8ArrayBE] at hb
  obtain ⟨i, _, rfl⟩ := List.mem_map.mp hb
  exact Nat.mod_lt _ (by norm_num)

theorem readBE_foldl (l : List Nat) : ∀ acc : Nat,
    l.foldl (fun a b => a * 256 + b) acc = acc * 256 ^ l.length + readBE l := by
  induction l with
  | nil => intro acc; simp [readBE]
  | cons b t ih =>
    intro acc
    rw [List.foldl_cons, ih (acc * 256 + b)]
    rw [show readBE (b :: t) = (b :: t).foldl (fun a b => a * 256 + b) 0 from rfl,
      List.foldl_cons, ih (0 * 256 + b)]
    simp [List.length_cons]
    ring

theorem readBE_cons (b : Nat) (t : List Nat) :
    readBE (b :: t) = b * 256 ^ t.length + readBE t := by
  rw [show readBE (b :: t) = (b :: t).foldl (fun a b => a * 256 + b) 0 from rfl,
    List.foldl_cons, readBE_foldl]
  ring_nf

theorem readBE_lt (l : List Nat) (hb : ∀ b ∈ l, b < 256) :
    readBE l < 256 ^ l.length := by
  induction l with
  | nil => simp [readBE]
  | cons b t ih =>
    rw [readBE_cons, List.length_cons, pow_succ]
    have h1 : b < 256 := hb b (by simp)
    have h2 : readBE t < 256 ^ t.length := ih (fun x hx => hb x (by simp [hx]))
    calc b * 256 ^ t.length + readBE t
        ≤ 255 * 256 ^ t.length + readBE t := by
          have : b ≤ 255 := by omega
          exact Nat.add_le_add_right (Nat.mul_le_mul_right _ this) _
      _ < 255 * 256 ^ t.length + 256 ^ t.length := by omega
      _ = 256 ^ t.length * 256 := by ring

theorem digit_mod_pow (x L j : Nat) (hj : j < L) :
    x / 256 ^ j % 256 = (x % 256 ^ L) / 256 ^ j % 256 := by
  have hpow : (256 : Nat) ^ L = 256 ^ j * (256 * 256 ^ (L - j - 1)) := by
    rw [show (256 : Nat) * 256 ^ (L - j - 1) = 256 ^ (L - j) from by
      rw [← pow_succ']
      congr 1
      omega]
    rw [← pow_add]
    congr 1
    omega
  have hx := Nat.div_add_mod x (256 ^ L)
  set r := x % 256 ^ L with hr
  set q := x / 256 ^ L with hq
  have hxeq : x = 256 ^ j * ((256 * 256 ^ (L - j - 1)) * q) + r := by
    rw [← hx, hpow]
    ring
  rw [hxeq, Nat.mul_add_div (by positivity),
    show (256 : Nat) * 256 ^ (L - j - 1) * q = (256 ^ (L - j - 1) * q) * 256 from by ring,
    Nat.add_comm ((256 ^ (L - j - 1) * q) * 256) (r / 256 ^ j),
    Nat.add_mul_mod_self_right]

theorem toUint8ArrayBE_succ (x L : Nat) :
    toUint8ArrayBE x (L + 1) = (x / 256 ^ L % 256) :: toUint8ArrayBE (x % 256 ^ L) L := by
  rw [toUint8ArrayBE, List.range_succ_eq_map, List.map_cons, List.map_map]
  congr 1
  · rw [toUint8ArrayBE]
    apply List.map_congr_left
    intro i hi
    rw [List.mem_range] at hi
    simp only [Function.comp_apply, Nat.succ_eq_add_one]
    rw [show L + 1 - 1 - (i + 1) = L - 1 - i from by omega]
    exact digit_mod_pow x L (L - 1 - i) (by omega)

theorem readBE_toUint8ArrayBE (len : Nat) : ∀ x < 256 ^ len,
    readBE (toUint8ArrayBE x len) = x := by
  induction len with
  | zero =>
    intro x hx
    rw [pow_zero, Nat.lt_one_iff] at hx
    subst hx
    rfl
  | succ L ih =>
    intro x hx
    have hdiv : x / 256 ^ L < 256 := by
      rw [Nat.div_lt_iff_lt_mul (by positivity)]
      calc x < 256 ^ (L + 1) := hx
        _ = 256 * 256 ^ L := by ring
    rw [toUint8ArrayBE_succ, readBE_cons, toUint8ArrayBE_length,
      ih (x % 256 ^ L) (Nat.mod_lt _ (by positivity)), Nat.mod_eq_of_lt hdiv,
      Nat.mul_comm (x / 256 ^ L) (256 ^ L)]
    exact Nat.div_add_mod x (256 ^ L)

theorem toUint8ArrayBE_readBE (l : List Nat) (hb : ∀ b ∈ l, b < 256) :
    toUint8ArrayBE (readBE l) l.length = l := by
  induction l with
  | nil => rfl
  | cons b t ih =>
    have hblt : b < 256 := hb b (by simp)
    have hr : readBE t < 256 ^ t.length := readBE_lt t (fun x hx => hb x (by simp [hx]))
    rw [List.length_cons, toUint8ArrayBE_succ, readBE_cons]
    have hd : (b * 256 ^ t.length + readBE t) / 256 ^ t.length = b := by
      rw [show b * 256 ^ t.length + readBE t = 256 ^ t.length * b + readBE t from by ring,
        Nat.mul_add_div (by positivity), Nat.div_eq_of_lt hr]
      omega
    have hm : (b * 256 ^ t.length + readBE t) % 256 ^ t.length = readBE t := by
      rw [Nat.add_comm, Nat.add_mul_mod_self_right, Nat.mod_eq_of_lt hr]
    rw [hd, hm, Nat.mod_eq_of_lt hblt, ih (fun x hx => hb x (by simp [hx]))]

theorem readBE_inj (l1 l2 : List Nat) (h1 : ∀ b ∈ l1, b < 256) (h2 : ∀ b ∈ l2, b < 256)
    (hlen : l1.length = l2.length) (h : readBE l1 = readBE l2) : l1 = l2 := by
  rw [← toUint8ArrayBE_readBE l1 h1, ← toUint8ArrayBE_readBE l2 h2, h, hlen]

/-! ### RSA correctness core: `m ^ k ≡ m (mod n)` for squarefree `n` and
`k ≡ 1 (mod φ(n))` -/

theorem pow_congr_self_mod_prime (p : Nat) (hp : p.Prime) (k : Nat) (hk : 1 ≤ k)
    (hcong : k ≡ 1 [MOD p - 1]) (m : Nat) : m ^ k ≡ m [MOD p] := by
  haveI : Fact p.Prime := ⟨hp⟩
  rw [← ZMod.natCast_eq_natCast_iff]
  push_cast
  by_cases hx : (m : ZMod p) = 0
  · rw [hx, zero_pow (by omega)]
  · obtain ⟨t, ht⟩ : ∃ t, k = (p - 1) * t + 1 := by
      have hp2 := hp.two_le
      rcases Nat.lt_or_ge (p - 1) 2 with h2 | h2
      · have hp1 : p - 1 = 1 := by omega
        exact ⟨k - 1, by rw [hp1]; omega⟩
      · refine ⟨k / (p - 1), ?_⟩
        have hmod := Nat.div_add_mod k (p - 1)
        have h1 : k % (p - 1) = 1 := by
          rw [Nat.ModEq] at hcong
          rw [hcong, Nat.mod_eq_of_lt (by omega)]
        omega
    rw [ht, pow_add, pow_mul, pow_one, ZMod.pow_card_sub_one_eq_one hx, one_pow, one_mul]

theorem rsa_pow_congr : ∀ n, Squarefree n → ∀ k, 1 ≤ k →
    k ≡ 1 [MOD Nat.totient n] → ∀ m, m ^ k ≡ m [MOD n] := by
  intro n
  induction n using Nat.strong_induction_on with
  | _ n ih =>
    intro hsf k hk hcong m
    match hn : n with
    | 0 => exact absurd hsf not_squarefree_zero
    | 1 => exact Nat.modEq_one
    | (N + 2) =>
      set p := (N + 2).minFac with hpdef
      have hp : p.Prime := Nat.minFac_prime (by omega)
      have hdvd : p ∣ N + 2 := Nat.minFac_dvd (N + 2)
      obtain ⟨w, hw⟩ := hdvd
      have hp2 := hp.two_le
      have hwpos : 0 < w := by
        rcases Nat.eq_zero_or_pos w with h0 | h
        · rw [h0, Nat.mul_zero] at hw
          omega
        · exact h
      have hco : Nat.Coprime p w := by
        by_contra hnc
        have hpw : p ∣ w := by
          rcases (Nat.coprime_or_dvd_of_prime hp w) with hcop | hdv
          · exact absurd hcop hnc
          · exact hdv
        obtain ⟨v, hv⟩ := hpw
        have : p * p ∣ N + 2 := ⟨v, by rw [hw, hv]; ring⟩
        have := hsf p this
        exact hp.ne_one (Nat.isUnit_iff.mp this)
      have hwlt : w < N + 2 := by nlinarith
      have hsfw : Squarefree w := Squarefree.squarefree_of_dvd ⟨p, by rw [hw]; ring⟩ hsf
      have htot : Nat.totient (N + 2) = Nat.totient p * Nat.totient w := by
        rw [hw, Nat.totient_mul hco]
      have hcp : k ≡ 1 [MOD p - 1] := by
        apply Nat.ModEq.of_dvd _ hcong
        rw [htot, Nat.totient_prime hp]
        exact ⟨Nat.totient w, rfl⟩
      have hcw : k ≡ 1 [MOD Nat.totient w] := by
        apply Nat.ModEq.of_dvd _ hcong
        rw [htot]
        exact ⟨Nat.totient p, by ring⟩
      have h1 : m ^ k ≡ m [MOD p] := pow_congr_self_mod_prime p hp k hk hcp m
      have h2 : m ^ k ≡ m [MOD w] := ih w hwlt hsfw k hk hcw m
      rw [hw]
      exact (Nat.modEq_and_modEq_iff_modEq_mul hco).mp ⟨h1, h2⟩

/-! ## EMSA-PKCS1-v1.5 encoding and `bnSign` / `bnVerify`
(src/crypto/public_key/rsa.js) -/

/-- Modelled from the spec: the DigestInfo (hash header) prefixes of
EMSA-PKCS1-v1.5, from `crypto/pkcs1.js`, which is not part of src/.
Indexed by `enums.hash` IDs. -/
def hashHeader : Nat → Option (List Nat)
  | 1 => some [0x30, 0x20, 0x30, 0x0c, 0x06, 0x08, 0x2a, 0x86, 0x48, 0x86,
               0xf7, 0x0d, 0x02, 0x05, 0x05, 0x00, 0x04, 0x10]
  | 2 => some [0x30, 0x21, 0x30, 0x09, 0x06, 0x05, 0x2b, 0x0e, 0x03, 0x02,
               0x1a, 0x05, 0x00, 0x04, 0x14]
  | 3 => some [0x30, 0x21, 0x30, 0x09, 0x06, 0x05, 0x2b, 0x24, 0x03, 0x02,
               0x01, 0x05, 0x00, 0x04, 0x14]
  | 8 => some [0x30, 0x31, 0x30, 0x0d, 0x06, 0x09, 0x60, 0x86, 0x48, 0x01,
               0x65, 0x03, 0x04, 0x02, 0x01, 0x05, 0x00, 0x04, 0x20]
  | 9 => some [0x30, 0x41, 0x30, 0x0d, 0x06, 0x09, 0x60, 0x86, 0x48, 0x01,
               0x65, 0x03, 0x04, 0x02, 0x02, 0x05, 0x00, 0x04, 0x30]
  | 10 => some [0x30, 0x51, 0x30, 0x0d, 0x06, 0x09, 0x60, 0x86, 0x48, 0x01,
                0x65, 0x03, 0x04, 0x02, 0x03, 0x05, 0x00, 0x04, 0x40]
  | 11 => some [0x30, 0x2d, 0x30, 0x0d, 0x06, 0x09, 0x60, 0x86, 0x48, 0x01,
                0x65, 0x03, 0x04, 0x02, 0x04, 0x05, 0x00, 0x04, 0x1c]
  | _ => none

/-- Modelled from the spec: `emsaEncode` (EMSA-PKCS1-v1.5) from
`crypto/pkcs1.js`, which is not part of src/:
`0x00 0x01 ‖ PS (at least eight 0xFF bytes) ‖ 0x00 ‖ DigestInfo ‖ hash`,
of total length `emLen`; unknown hash algorithm or too small `emLen`
throws. -/
def emsaEncode (hashAlgo : Nat) (hashed : List Nat) (emLen : Nat) : Option (List Nat) :=
  match hashHeader hashAlgo with
  | none => none
  | some hdr =>
    let t := hdr ++ hashed
    if emLen < t.length + 11 then none
    else some ([0, 1] ++ List.replicate (emLen - t.length - 3) 255 ++ [0] ++ t)

def bnSign (hashAlgo n d : Nat) (hashed : List Nat) : Option (List Nat) :=
  match emsaEncode hashAlgo hashed (byteLength n) with
  | none => none
  | some em =>
    let m := readBE em
    if m ≥ n then none
    else some (toUint8ArrayBE (m ^ d % n) (byteLength n))

/-- `bnVerify`: `s ≥ n` throws; otherwise compare
`s.modExp(e, n).toUint8Array('be', n.byteLength())` with the freshly
computed encoding (`util.equalsUint8Array`, i.e. element-wise equality). -/
def bnVerify (hashAlgo : Nat) (s : List Nat) (n e : Nat) (hashed : List Nat) :
    Option Bool :=
  let sNum := readBE s
  if sNum ≥ n then none
  else
    match emsaEncode hashAlgo hashed (byteLength n) with
    | none => none
    | some em2 => some (decide (toUint8ArrayBE (sNum ^ e % n) (byteLength n) = em2))

/-- Shape facts about a successful `emsaEncode`. -/
theorem emsaEncode_some (hashAlgo : Nat) (hashed : List Nat) (emLen : Nat)
    (em : List Nat) (h : emsaEncode hashAlgo hashed emLen = some em) :
    ∃ hdr, hashHeader hashAlgo = some hdr ∧
      emLen ≥ (hdr ++ hashed).length + 11 ∧
      em = [0, 1] ++ List.replicate (emLen - (hdr ++ hashed).length - 3) 255 ++
        [0] ++ (hdr ++ hashed) ∧
      em.length = emLen := by
  rw [emsaEncode] at h
  cases hhdr : hashHeader hashAlgo with
  | none => rw [hhdr] at h; exact absurd h (by simp)
  | some hdr =>
    rw [hhdr] at h
    simp only at h
    by_cases hlen : emLen < (hdr ++ hashed).length + 11
    · rw [if_pos hlen] at h
      exact absurd h (by simp)
    · rw [if_neg hlen] at h
      have hem := Option.some_injective _ h
      refine ⟨hdr, rfl, by omega, hem.symm, ?_⟩
      rw [← hem]
      simp only [List.length_append, List.length_cons, List.length_nil,
        List.length_replicate]
      simp only [List.length_append] at hlen
      omega

theorem hashHeader_bytes_lt (hashAlgo : Nat) (hdr : List Nat)
    (h : hashHeader hashAlgo = some hdr) : ∀ b ∈ hdr, b < 256 := by
  match hashAlgo, h with
  | 1, h => cases h; decide
  | 2, h => cases h; decide
  | 3, h => cases h; decide
  | 8, h => cases h; decide
  | 9, h => cases h; decide
  | 10, h => cases h; decide
  | 11, h => cases h; decide

theorem emsaEncode_bytes_lt (hashAlgo : Nat) (hashed : List Nat) (emLen : Nat)
    (em : List Nat) (h : emsaEncode hashAlgo hashed emLen = some em)
    (hh : ∀ b ∈ hashed, b < 256) : ∀ b ∈ em, b < 256 := by
  obtain ⟨hdr, hhdr, _, hem, _⟩ := emsaEncode_some hashAlgo hashed emLen em h
  intro b hb
  rw [hem] at hb
  rcases List.mem_append.mp hb with hb1 | hb2
  · rcases List.mem_append.mp hb1 with hb3 | h0
    · rcases List.mem_append.mp hb3 with h01 | hrep
      · simp at h01
        rcases h01 with rfl | rfl <;> norm_num
      · have h255 := List.eq_of_mem_replicate hrep
        subst h255
        norm_num
    · simp at h0
      subst h0
      norm_num
  · rcases List.mem_append.mp hb2 with h4 | h5
    · exact hashHeader_bytes_lt hashAlgo hdr hhdr b h4
    · exact hh b h5

/-- `n` is below `256 ^ byteLength n`. -/
theorem lt_pow_byteLength (n : Nat) : n < 256 ^ byteLength n := by
  have hub := (bitLenAux_bounds n n le_rfl).1
  have h8 : bitLen n ≤ 8 * byteLength n := by
    rw [byteLength]
    omega
  calc n < 2 ^ bitLen n := hub
    _ ≤ 2 ^ (8 * byteLength n) := Nat.pow_le_pow_right (by norm_num) h8
    _ = 256 ^ byteLength n := by
      rw [pow_mul]
      norm_num

/-! ### Claim C2: RSA sign/verify soundness -/

/-- C2: for every RSA key (n, e, d) with squarefree modulus and d·e ≡ 1
modulo the multiplicative group order φ(n), and every hashed message
whose EMSA-PKCS1-v1.5 encoding is numerically smaller than n:
`bnVerify(hashAlgo, bnSign(hashAlgo, n, d, hashed), n, e, hashed)`
returns true, and changing any bit of the signature (any same-length
byte array different from it) or of the hashed message makes
verification fail — it returns false or raises an error (`none`),
never `some true`. -/
theorem C2_rsa_sign_verify (hashAlgo n e d : Nat) (hashed : List Nat)
    (hsf : Squarefree n) (hd : 0 < d) (he : 0 < e)
    (hde : d * e ≡ 1 [MOD Nat.totient n])
    (hhb : ∀ b ∈ hashed, b < 256)
    (em : List Nat) (hem : emsaEncode hashAlgo hashed (byteLength n) = some em)
    (hlt : readBE em < n) :
    ∃ sig, bnSign hashAlgo n d hashed = some sig ∧
      bnVerify hashAlgo sig n e hashed = some true ∧
      (∀ s' : List Nat, s'.length = sig.length → (∀ b ∈ s', b < 256) → s' ≠ sig →
         bnVerify hashAlgo s' n e hashed ≠ some true) ∧
      (∀ hashed' : List Nat, hashed'.length = hashed.length → hashed' ≠ hashed →
         bnVerify hashAlgo sig n e hashed' ≠ some true) := by
  set L := byteLength n with hL
  set m := readBE em with hm
  have hn0 : 0 < n := by omega
  have hnL : n < 256 ^ L := lt_pow_byteLength n
  obtain ⟨hdr, hhdr, hlen11, hemstruct, hemlen⟩ :=
    emsaEncode_some hashAlgo hashed L em hem
  have hembytes : ∀ b ∈ em, b < 256 := emsaEncode_bytes_lt hashAlgo hashed L em hem hhb
  set sig := toUint8ArrayBE (m ^ d % n) L with hsig
  have hsiglen : sig.length = L := toUint8ArrayBE_length _ _
  have hsigbytes : ∀ b ∈ sig, b < 256 := toUint8ArrayBE_lt _ _
  have hsigval : readBE sig = m ^ d % n :=
    readBE_toUint8ArrayBE L (m ^ d % n) (lt_trans (Nat.mod_lt _ hn0) hnL)
  have hsign : bnSign hashAlgo n d hashed = some sig := by
    rw [bnSign, hem]
    show (if readBE em ≥ n then none
      else some (toUint8ArrayBE (readBE em ^ d % n) (byteLength n))) = some sig
    rw [if_neg (by omega)]
  have hk1 : 1 ≤ d * e := Nat.mul_pos hd he
  have hk2 : 1 ≤ e * d := Nat.mul_pos he hd
  have hde' : e * d ≡ 1 [MOD Nat.totient n] := by rwa [Nat.mul_comm] at hde
  have hperm : ∀ x : Nat, x ^ (d * e) % n = x % n := fun x =>
    rsa_pow_congr n hsf (d * e) hk1 hde x
  have hperm' : ∀ x : Nat, x ^ (e * d) % n = x % n := fun x =>
    rsa_pow_congr n hsf (e * d) hk2 hde' x
  -- the verification of a below-modulus value s computes the comparison
  have hverify : ∀ (s' : List Nat) (hashed₂ : List Nat) (em₂ : List Nat),
      readBE s' < n → emsaEncode hashAlgo hashed₂ L = some em₂ →
      bnVerify hashAlgo s' n e hashed₂ =
        some (decide (toUint8ArrayBE (readBE s' ^ e % n) L = em₂)) := by
    intro s' hashed₂ em₂ hs hm₂
    rw [bnVerify]
    show (if readBE s' ≥ n then none
      else match emsaEncode hashAlgo hashed₂ (byteLength n) with
        | none => none
        | some em₃ =>
          some (decide (toUint8ArrayBE (readBE s' ^ e % n) (byteLength n) = em₃))) = _
    rw [if_neg (by omega), ← hL, hm₂]
  -- the honest signature verifies
  have hEM1 : toUint8ArrayBE (readBE sig ^ e % n) L = em := by
    rw [hsigval]
    have hcalc : (m ^ d % n) ^ e % n = m := by
      rw [← Nat.pow_mod, ← pow_mul, hperm m, Nat.mod_eq_of_lt hlt]
    rw [hcalc]
    have := toUint8ArrayBE_readBE em hembytes
    rw [hemlen] at this
    exact this
  have hsigv_lt : readBE sig < n := by
    rw [hsigval]
    exact Nat.mod_lt _ hn0
  refine ⟨sig, hsign, ?_, ?_, ?_⟩
  · rw [hverify sig hashed em hsigv_lt hem, hEM1]
    simp
  · -- tampered signature
    intro s' hlen' hb' hne' hcontra
    by_cases hs : readBE s' < n
    · rw [hverify s' hashed em hs hem] at hcontra
      have hdec := Option.some_injective _ hcontra
      rw [decide_eq_true_iff] at hdec
      -- the tampered value maps to the same encoding
      have hval : readBE s' ^ e % n = m := by
        have := congrArg readBE hdec
        rw [readBE_toUint8ArrayBE L _ (lt_trans (Nat.mod_lt _ hn0) hnL)] at this
        exact this
      have hvalsig : readBE sig ^ e % n = m := by
        have := congrArg readBE hEM1
        rw [readBE_toUint8ArrayBE L _ (lt_trans (Nat.mod_lt _ hn0) hnL)] at this
        exact this
      have heq : readBE s' = readBE sig := by
        have h1 : readBE s' ^ (e * d) % n = readBE sig ^ (e * d) % n := by
          rw [pow_mul, pow_mul, Nat.pow_mod (readBE s' ^ e) d n,
            Nat.pow_mod (readBE sig ^ e) d n, hval, hvalsig]
        rw [hperm' (readBE s'), hperm' (readBE sig)] at h1
        rw [Nat.mod_eq_of_lt hs, Nat.mod_eq_of_lt hsigv_lt] at h1
        exact h1
      exact hne' (readBE_inj s' sig hb' hsigbytes (by rw [hlen', hsiglen]) heq)
    · have hnone : bnVerify hashAlgo s' n e hashed = none := by
        rw [bnVerify]
        show (if readBE s' ≥ n then (none : Option Bool)
          else match emsaEncode hashAlgo hashed (byteLength n) with
            | none => none
            | some em₃ =>
              some (decide (toUint8ArrayBE (readBE s' ^ e % n) (byteLength n) = em₃))) = none
        rw [if_pos (by omega)]
      rw [hnone] at hcontra
      exact Option.noConfusion hcontra
  · -- tampered hashed message
    intro hashed' hlen' hne' hcontra
    set em' := [0, 1] ++ List.replicate (L - (hdr ++ hashed').length - 3) 255 ++
      [0] ++ (hdr ++ hashed') with hem'def
    have hlen_eq : (hdr ++ hashed').length = (hdr ++ hashed).length := by
      simp [hlen']
    have hem' : emsaEncode hashAlgo hashed' L = some em' := by
      rw [emsaEncode, hhdr]
      simp only
      rw [if_neg (by omega)]
    rw [hverify sig hashed' em' hsigv_lt hem', hEM1] at hcontra
    have hdec := Option.some_injective _ hcontra
    rw [decide_eq_true_iff] at hdec
    -- em = em' forces hashed = hashed'
    rw [hemstruct, hem'def, hlen_eq] at hdec
    have hcancel := List.append_cancel_left hdec
    have := List.append_cancel_left hcancel
    exact hne' this.symm

/-! ### Witness material for claim C2: a concrete squarefree RSA modulus -/

def nW : Nat := 3725593511519078483520109337037605146579437243701947141111458182026786767717483946487767309085895399544024063567321

def dW : Nat := 1627562666914987112248443310809171742661940414344519773444832567542943044894982777331654876594323747297920714473473

def hashedW : List Nat := [222, 173, 190, 239, 1, 35, 69, 103, 137, 171, 205, 239, 16, 50, 84, 118]

def emW : List Nat := [0, 1, 255, 255, 255, 255, 255, 255, 255, 255, 255, 255, 255, 0, 48, 32, 48, 12, 6, 8, 42, 134, 72, 134, 247, 13, 2, 5, 5, 0, 4, 16, 222, 173, 190, 239, 1, 35, 69, 103, 137, 171, 205, 239, 16, 50, 84, 118]

theorem pW0 : Nat.Prime 1084891 := by norm_num

theorem pW1 : Nat.Prime 1039553 := by norm_num

theorem pW2 : Nat.Prime 1103519 := by norm_num

theorem pW3 : Nat.Prime 1170641 := by norm_num

theorem pW4 : Nat.Prime 1012663 := by norm_num

theorem pW5 : Nat.Prime 1018993 := by norm_num

theorem pW6 : Nat.Prime 1140487 := by norm_num

theorem pW7 : Nat.Prime 1024693 := by norm_num

theorem pW8 : Nat.Prime 1095907 := by norm_num

theorem pW9 : Nat.Prime 1152791 := by norm_num

theorem pW10 : Nat.Prime 1015207 := by norm_num

theorem pW11 : Nat.Prime 1133039 := by norm_num

theorem pW12 : Nat.Prime 1056287 := by norm_num

theorem pW13 : Nat.Prime 1009837 := by norm_num

theorem pW14 : Nat.Prime 1022531 := by norm_num

theorem pW15 : Nat.Prime 1113701 := by norm_num

theorem pW16 : Nat.Prime 1109629 := by norm_num

theorem pW17 : Nat.Prime 1018313 := by norm_num

theorem pW18 : Nat.Prime 1063109 := by norm_num

theorem nW_factored : nW = 1084891 * (1039553 * (1103519 * (1170641 * (1012663 * (1018993 * (1140487 * (1024693 * (1095907 * (1152791 * (1015207 * (1133039 * (1056287 * (1009837 * (1022531 * (1113701 * (1109629 * (1018313 * 1063109))))))))))))))))) := by norm_num [nW]

theorem nW_squarefree : Squarefree nW := by
  rw [nW_factored]
  refine (Nat.squarefree_mul (show Nat.Coprime 1084891 (1039553 * (1103519 * (1170641 * (1012663 * (1018993 * (1140487 * (1024693 * (1095907 * (1152791 * (1015207 * (1133039 * (1056287 * (1009837 * (1022531 * (1113701 * (1109629 * (1018313 * 1063109))))))))))))))))) from by decide)).mpr
    ⟨Irreducible.squarefree pW0, ?_⟩
  refine (Nat.squarefree_mul (show Nat.Coprime 1039553 (1103519 * (1170641 * (1012663 * (1018993 * (1140487 * (1024693 * (1095907 * (1152791 * (1015207 * (1133039 * (1056287 * (1009837 * (1022531 * (1113701 * (1109629 * (1018313 * 1063109)))))))))))))))) from by decide)).mpr
    ⟨Irreducible.squarefree pW1, ?_⟩
  refine (Nat.squarefree_mul (show Nat.Coprime 1103519 (1170641 * (1012663 * (1018993 * (1140487 * (1024693 * (1095907 * (1152791 * (1015207 * (1133039 * (1056287 * (1009837 * (1022531 * (1113701 * (1109629 * (1018313 * 1063109))))))))))))))) from by decide)).mpr
    ⟨Irreducible.squarefree pW2, ?_⟩
  refine (Nat.squarefree_mul (show Nat.Coprime 1170641 (1012663 * (1018993 * (1140487 * (1024693 * (1095907 * (1152791 * (1015207 * (1133039 * (1056287 * (1009837 * (1022531 * (1113701 * (1109629 * (1018313 * 1063109)))))))))))))) from by decide)).mpr
    ⟨Irreducible.squarefree pW3, ?_⟩
  refine (Nat.squarefree_mul (show Nat.Coprime 1012663 (1018993 * (1140487 * (1024693 * (1095907 * (1152791 * (1015207 * (1133039 * (1056287 * (1009837 * (1022531 * (1113701 * (1109629 * (1018313 * 1063109))))))))))))) from by decide)).mpr
    ⟨Irreducible.squarefree pW4, ?_⟩
  refine (Nat.squarefree_mul (show Nat.Coprime 1018993 (1140487 * (1024693 * (1095907 * (1152791 * (1015207 * (1133039 * (1056287 * (1009837 * (1022531 * (1113701 * (1109629 * (1018313 * 1063109)))))))))))) from by decide)).mpr
    ⟨Irreducible.squarefree pW5, ?_⟩
  refine (Nat.squarefree_mul (show Nat.Coprime 1140487 (1024693 * (1095907 * (1152791 * (1015207 * (1133039 * (1056287 * (1009837 * (1022531 * (1113701 * (1109629 * (1018313 * 1063109))))))))))) from by decide)).mpr
    ⟨Irreducible.squarefree pW6, ?_⟩
  refine (Nat.squarefree_mul (show Nat.Coprime 1024693 (1095907 * (1152791 * (1015207 * (1133039 * (1056287 * (1009837 * (1022531 * (1113701 * (1109629 * (1018313 * 1063109)))))))))) from by decide)).mpr
    ⟨Irreducible.squarefree pW7, ?_⟩
  refine (Nat.squarefree_mul (show Nat.Coprime 1095907 (1152791 * (1015207 * (1133039 * (1056287 * (1009837 * (1022531 * (1113701 * (1109629 * (1018313 * 1063109))))))))) from by decide)).mpr
    ⟨Irreducible.squarefree pW8, ?_⟩
  refine (Nat.squarefree_mul (show Nat.Coprime 1152791 (1015207 * (1133039 * (1056287 * (1009837 * (1022531 * (1113701 * (1109629 * (1018313 * 1063109)))))))) from by decide)).mpr
    ⟨Irreducible.squarefree pW9, ?_⟩
  refine (Nat.squarefree_mul (show Nat.Coprime 1015207 (1133039 * (1056287 * (1009837 * (1022531 * (1113701 * (1109629 * (1018313 * 1063109))))))) from by decide)).mpr
    ⟨Irreducible.squarefree pW10, ?_⟩
  refine (Nat.squarefree_mul (show Nat.Coprime 1133039 (1056287 * (1009837 * (1022531 * (1113701 * (1109629 * (1018313 * 1063109)))))) from by decide)).mpr
    ⟨Irreducible.squarefree pW11, ?_⟩
  refine (Nat.squarefree_mul (show Nat.Coprime 1056287 (1009837 * (1022531 * (1113701 * (1109629 * (1018313 * 1063109))))) from by decide)).mpr
    ⟨Irreducible.squarefree pW12, ?_⟩
  refine (Nat.squarefree_mul (show Nat.Coprime 1009837 (1022531 * (1113701 * (1109629 * (1018313 * 1063109)))) from by decide)).mpr
    ⟨Irreducible.squarefree pW13, ?_⟩
  refine (Nat.squarefree_mul (show Nat.Coprime 1022531 (1113701 * (1109629 * (1018313 * 1063109))) from by decide)).mpr
    ⟨Irreducible.squarefree pW14, ?_⟩
  refine (Nat.squarefree_mul (show Nat.Coprime 1113701 (1109629 * (1018313 * 1063109)) from by decide)).mpr
    ⟨Irreducible.squarefree pW15, ?_⟩
  refine (Nat.squarefree_mul (show Nat.Coprime 1109629 (1018313 * 1063109) from by decide)).mpr
    ⟨Irreducible.squarefree pW16, ?_⟩
  refine (Nat.squarefree_mul (show Nat.Coprime 1018313 (1063109) from by decide)).mpr
    ⟨Irreducible.squarefree pW17, ?_⟩
  exact Irreducible.squarefree pW18

theorem nW_totient : Nat.totient nW = 3725527382962785455465272930058352432637197056857839139123816561735945595099105385001734680848108533640593408000000 := by
  rw [nW_factored
    , Nat.totient_mul (show Nat.Coprime 1084891 (1039553 * (1103519 * (1170641 * (1012663 * (1018993 * (1140487 * (1024693 * (1095907 * (1152791 * (1015207 * (1133039 * (1056287 * (1009837 * (1022531 * (1113701 * (1109629 * (1018313 * 1063109))))))))))))))))) from by decide)
    , Nat.totient_mul (show Nat.Coprime 1039553 (1103519 * (1170641 * (1012663 * (1018993 * (1140487 * (1024693 * (1095907 * (1152791 * (1015207 * (1133039 * (1056287 * (1009837 * (1022531 * (1113701 * (1109629 * (1018313 * 1063109)))))))))))))))) from by decide)
    , Nat.totient_mul (show Nat.Coprime 1103519 (1170641 * (1012663 * (1018993 * (1140487 * (1024693 * (1095907 * (1152791 * (1015207 * (1133039 * (1056287 * (1009837 * (1022531 * (1113701 * (1109629 * (1018313 * 1063109))))))))))))))) from by decide)
    , Nat.totient_mul (show Nat.Coprime 1170641 (1012663 * (1018993 * (1140487 * (1024693 * (1095907 * (1152791 * (1015207 * (1133039 * (1056287 * (1009837 * (1022531 * (1113701 * (1109629 * (1018313 * 1063109)))))))))))))) from by decide)
    , Nat.totient_mul (show Nat.Coprime 1012663 (1018993 * (1140487 * (1024693 * (1095907 * (1152791 * (1015207 * (1133039 * (1056287 * (1009837 * (1022531 * (1113701 * (1109629 * (1018313 * 1063109))))))))))))) from by decide)
    , Nat.totient_mul (show Nat.Coprime 1018993 (1140487 * (1024693 * (1095907 * (1152791 * (1015207 * (1133039 * (1056287 * (1009837 * (1022531 * (1113701 * (1109629 * (1018313 * 1063109)))))))))))) from by decide)
    , Nat.totient_mul (show Nat.Coprime 1140487 (1024693 * (1095907 * (1152791 * (1015207 * (1133039 * (1056287 * (1009837 * (1022531 * (1113701 * (1109629 * (1018313 * 1063109))))))))))) from by decide)
    , Nat.totient_mul (show Nat.Coprime 1024693 (1095907 * (1152791 * (1015207 * (1133039 * (1056287 * (1009837 * (1022531 * (1113701 * (1109629 * (1018313 * 1063109)))))))))) from by decide)
    , Nat.totient_mul (show Nat.Coprime 1095907 (1152791 * (1015207 * (1133039 * (1056287 * (1009837 * (1022531 * (1113701 * (1109629 * (1018313 * 1063109))))))))) from by decide)
    , Nat.totient_mul (show Nat.Coprime 1152791 (1015207 * (1133039 * (1056287 * (1009837 * (1022531 * (1113701 * (1109629 * (1018313 * 1063109)))))))) from by decide)
    , Nat.totient_mul (show Nat.Coprime 1015207 (1133039 * (1056287 * (1009837 * (1022531 * (1113701 * (1109629 * (1018313 * 1063109))))))) from by decide)
    , Nat.totient_mul (show Nat.Coprime 1133039 (1056287 * (1009837 * (1022531 * (1113701 * (1109629 * (1018313 * 1063109)))))) from by decide)
    , Nat.totient_mul (show Nat.Coprime 1056287 (1009837 * (1022531 * (1113701 * (1109629 * (1018313 * 1063109))))) from by decide)
    , Nat.totient_mul (show Nat.Coprime 1009837 (1022531 * (1113701 * (1109629 * (1018313 * 1063109)))) from by decide)
    , Nat.totient_mul (show Nat.Coprime 1022531 (1113701 * (1109629 * (1018313 * 1063109))) from by decide)
    , Nat.totient_mul (show Nat.Coprime 1113701 (1109629 * (1018313 * 1063109)) from by decide)
    , Nat.totient_mul (show Nat.Coprime 1109629 (1018313 * 1063109) from by decide)
    , Nat.totient_mul (show Nat.Coprime 1018313 (1063109) from by decide)
    , Nat.totient_prime pW0
    , Nat.totient_prime pW1
    , Nat.totient_prime pW2
    , Nat.totient_prime pW3
    , Nat.totient_prime pW4
    , Nat.totient_prime pW5
    , Nat.totient_prime pW6
    , Nat.totient_prime pW7
    , Nat.totient_prime pW8
    , Nat.totient_prime pW9
    , Nat.totient_prime pW10
    , Nat.totient_prime pW11
    , Nat.totient_prime pW12
    , Nat.totient_prime pW13
    , Nat.totient_prime pW14
    , Nat.totient_prime pW15
    , Nat.totient_prime pW16
    , Nat.totient_prime pW17
    , Nat.totient_prime pW18
    ]

theorem dW_e_modEq : dW * 65537 ≡ 1 [MOD Nat.totient nW] := by
  show dW * 65537 % Nat.totient nW = 1 % Nat.totient nW
  rw [nW_totient]
  decide

set_option maxRecDepth 8000 in
/-- Witness for C2: concrete 381-bit squarefree RSA modulus, e = 65537, MD5 DigestInfo. -/
theorem C2_rsa_sign_verify_witness :
    Squarefree nW ∧ 0 < dW ∧ 0 < 65537 ∧
      dW * 65537 ≡ 1 [MOD Nat.totient nW] ∧
      (∀ b ∈ hashedW, b < 256) ∧
      emsaEncode 1 hashedW (byteLength nW) = some emW ∧
      readBE emW < nW ∧
      (∃ sig, bnSign 1 nW dW hashedW = some sig ∧
        bnVerify 1 sig nW 65537 hashedW = some true ∧
        (∀ s' : List Nat, s'.length = sig.length → (∀ b ∈ s', b < 256) → s' ≠ sig →
           bnVerify 1 s' nW 65537 hashedW ≠ some true) ∧
        (∀ hashed' : List Nat, hashed'.length = hashedW.length → hashed' ≠ hashedW →
           bnVerify 1 sig nW 65537 hashed' ≠ some true)) :=
  ⟨nW_squarefree, by decide, by decide, dW_e_modEq, by decide, by decide, by decide,
   C2_rsa_sign_verify 1 nW 65537 dW hashedW nW_squarefree (by decide) (by decide)
     dW_e_modEq (by decide) emW (by decide) (by decide)⟩

end OpenPGPJS
